import Mathlib

/-!
Shallow embedding of `src/minesweeper.py` (terminal Minesweeper).

Conventions of the embedding:
* Python's `Tile` dataclass becomes the structure `Tile`; the `x`/`y` fields
  of the Python object are represented by the grid index at which the tile is
  stored (the spec guarantees tiles are uniquely owned and never aliased, and
  the source never moves a tile), so mutating the object fetched from
  `board[x][y]` is the same as updating the grid at `(x, y)`.
* The board's `board` list-of-lists becomes a total function
  `Int → Int → Tile` together with `size`; `get_tile` reproduces the source's
  bounds checks (`< 0`, `> size`) and models the `try/except IndexError`
  around `board[x][y]` by the residual in-range test.
* `random.randint` draws are passed in as explicit coordinate lists.
* Python's `int(x)` truncation of the nonnegative float `size*size*density`
  is modelled as the exact rational floor.
* The recursive `evaluate_tile` is modelled with explicit fuel
  (`evalFuel`/`evalList`, returning `none` when the fuel is exhausted); the
  fuel measures call-stack depth exactly: each nested Python call costs one
  unit, the `for` loop over siblings costs none.  The pair also returns the
  list of positions `evaluate_tile` was invoked on, in call order (a trace),
  so that "how often a tile is evaluated" is observable.
-/

/-- The three values of `TILE_TYPES` / `tile.tile_type` in the source. -/
inductive TileType where
  | unknown : TileType
  | empty : TileType
  | mine : TileType
deriving DecidableEq, Repr

/-- The `Tile` dataclass: `tile_type`, `revealed`, `n_adjacent_mines`
(positions live in the grid index, see the header comment). -/
structure Tile where
  tile_type : TileType
  revealed : Bool
  n_adjacent_mines : Nat
deriving DecidableEq, Repr

/-- The glyph table `TILE_TYPES`. -/
def TILE_TYPES : TileType → String
  | .unknown => "?"
  | .empty => " "
  | .mine => "!"

/-- `Tile.__repr__`: the count digit if `n_adjacent_mines > 0`, else the
kind's glyph when revealed, else the unknown placeholder. -/
def tileRepr (t : Tile) : String :=
  if t.n_adjacent_mines > 0 then toString t.n_adjacent_mines
  else if t.revealed then TILE_TYPES t.tile_type
  else TILE_TYPES TileType.unknown

/-- The four difficulty keys of `DIFFICULTY_MAPPING`. -/
inductive Difficulty where
  | easy : Difficulty
  | medium : Difficulty
  | hard : Difficulty
  | insane : Difficulty
deriving DecidableEq, Repr

/-- `DIFFICULTY_MAPPING`: the density fraction per difficulty. -/
def DIFFICULTY_MAPPING : Difficulty → ℚ
  | .easy => 1 / 10
  | .medium => 2 / 10
  | .hard => 3 / 10
  | .insane => 5 / 10

/-- The `MinesweeperBoard` dataclass. -/
structure Board where
  size : Nat
  difficulty : Difficulty
  tiles : Int → Int → Tile
  n_total_mines : Nat

/-- `board_init`: every cell starts as an unrevealed `empty` tile with
count 0. -/
def board_init : Int → Int → Tile :=
  fun _ _ => { tile_type := TileType.empty, revealed := false, n_adjacent_mines := 0 }

/-- `set_number_of_mines`: `int((size * size) * DIFFICULTY_MAPPING[difficulty])`
(truncation of a nonnegative value = floor). -/
def set_number_of_mines (size : Nat) (difficulty : Difficulty) : Nat :=
  (⌊((size * size : Nat) : ℚ) * DIFFICULTY_MAPPING difficulty⌋).toNat

/-- `MinesweeperBoard.__post_init__`: build the grid and compute the mine
target. -/
def mkBoard (size : Nat) (difficulty : Difficulty) : Board :=
  { size := size
    difficulty := difficulty
    tiles := board_init
    n_total_mines := set_number_of_mines size difficulty }

/-- Functional update of the grid at one position. -/
def setTile (b : Board) (x y : Int) (t : Tile) : Board :=
  { b with tiles := fun i j => if i = x ∧ j = y then t else b.tiles i j }

/-- The position `(x, y)` denotes a real grid cell. -/
def onBoard (b : Board) (x y : Int) : Prop :=
  0 ≤ x ∧ x < (b.size : Int) ∧ 0 ≤ y ∧ y < (b.size : Int)

instance (b : Board) (x y : Int) : Decidable (onBoard b x y) := by
  unfold onBoard; infer_instance

/-- `get_tile`: the explicit `< 0` / `> self.size` checks of the source,
then the `try: self.board[x][y] except IndexError: return None`, which
absorbs the residual `x = size` / `y = size` cases. -/
def get_tile (b : Board) (x y : Int) : Option Tile :=
  if x < 0 ∨ x > (b.size : Int) then none
  else if y < 0 ∨ y > (b.size : Int) then none
  else if x < (b.size : Int) ∧ y < (b.size : Int) then some (b.tiles x y)
  else none

/-- One step of the placement loop: `tile = self.get_tile(x, y);
tile.tile_type = 'mine'` (the lookup is guarded because the draws are
always in range, so the source's lookup never yields `None`). -/
def plantMine (acc : Board) (p : Int × Int) : Board :=
  if onBoard acc p.1 p.2 then
    setTile acc p.1 p.2 { acc.tiles p.1 p.2 with tile_type := TileType.mine }
  else acc

/-- `populate_board_with_mines`: the two `randint` streams are the inputs;
`set(zip(xs, ys))` is the deduplicated zip, `n_total_mines` is reset to the
number of distinct pairs, and each distinct pair's tile gets
`tile_type = 'mine'`. -/
def populate_board_with_mines (b : Board) (xs ys : List Int) : Board :=
  ((List.zip xs ys).dedup).foldl plantMine
    { b with n_total_mines := ((List.zip xs ys).dedup).length }

/-- Mark every grid tile revealed (the double `for` loop in
`check_if_mine`'s losing branch). -/
def revealAll (b : Board) : Board :=
  { b with tiles := fun i j =>
      if onBoard b i j then { b.tiles i j with revealed := true } else b.tiles i j }

/-- `check_if_mine` on the tile stored at `(x, y)`: on a mine, reveal that
tile, reveal the whole grid and report `false`; otherwise report `true` and
leave the board unchanged. -/
def check_if_mine (b : Board) (x y : Int) : Bool × Board :=
  if (b.tiles x y).tile_type = TileType.mine then
    (false, revealAll (setTile b x y { b.tiles x y with revealed := true }))
  else (true, b)

/-- The eight neighbour positions, in the order the source fetches them. -/
def neighborOffsets (x y : Int) : List (Int × Int) :=
  [(x - 1, y - 1), (x - 1, y), (x - 1, y + 1),
   (x, y - 1), (x, y + 1),
   (x + 1, y - 1), (x + 1, y), (x + 1, y + 1)]

/-- `adjacent_tiles` after the filter: neighbours whose `get_tile` lookup is
not `None` and which are not yet revealed. -/
def adjacent_tiles (b : Board) (x y : Int) : List (Int × Int) :=
  (neighborOffsets x y).filter fun p =>
    match get_tile b p.1 p.2 with
    | none => false
    | some t => !t.revealed

/-- `mine_counter`: how many of the collected neighbours are typed mine. -/
def mine_counter (b : Board) (x y : Int) : Nat :=
  (adjacent_tiles b x y).countP fun p =>
    decide ((b.tiles p.1 p.2).tile_type = TileType.mine)

/-- The unconditional update of `evaluate_tile` on its argument:
`revealed = True`, `tile_type = 'empty'`, `n_adjacent_mines = mine_counter`. -/
def evalUpdate (b : Board) (x y : Int) (cnt : Nat) : Board :=
  setTile b x y { tile_type := TileType.empty, revealed := true, n_adjacent_mines := cnt }

/-- The `for t in adjacent_tiles: self.evaluate_tile(t)` loop, abstracted
over the one-tile evaluation function: thread the board through the calls,
concatenating the traces. -/
def evalListAux (f : Board → Int → Int → Option (Board × List (Int × Int))) :
    Board → List (Int × Int) → Option (Board × List (Int × Int))
  | b, [] => some (b, [])
  | b, p :: ps =>
    match f b p.1 p.2 with
    | none => none
    | some (b1, tr1) =>
      match evalListAux f b1 ps with
      | none => none
      | some (b2, tr2) => some (b2, tr1 ++ tr2)

/-- `evaluate_tile`, with explicit call-depth fuel: collect the unrevealed
valid neighbours, count mines among them, update the tile unconditionally;
stop when the count is positive, otherwise evaluate each collected neighbour
in turn.  Returns the resulting board together with the trace of positions
evaluated (in call order), or `none` if the fuel runs out. -/
def evalFuel : Nat → Board → Int → Int → Option (Board × List (Int × Int))
  | 0, _, _, _ => none
  | fuel + 1, b, x, y =>
    if 0 < mine_counter b x y then
      some (evalUpdate b x y (mine_counter b x y), [(x, y)])
    else
      match evalListAux (fun c u v => evalFuel fuel c u v)
          (evalUpdate b x y (mine_counter b x y)) (adjacent_tiles b x y) with
      | none => none
      | some (b2, tr) => some (b2, (x, y) :: tr)

/-- The sibling loop at a given call depth. -/
def evalList (fuel : Nat) : Board → List (Int × Int) → Option (Board × List (Int × Int)) :=
  evalListAux (fun c u v => evalFuel fuel c u v)

theorem evalFuel_zero (b : Board) (x y : Int) : evalFuel 0 b x y = none := rfl

theorem evalFuel_succ (fuel : Nat) (b : Board) (x y : Int) :
    evalFuel (fuel + 1) b x y =
      if 0 < mine_counter b x y then
        some (evalUpdate b x y (mine_counter b x y), [(x, y)])
      else
        match evalList fuel (evalUpdate b x y (mine_counter b x y))
            (adjacent_tiles b x y) with
        | none => none
        | some (b2, tr) => some (b2, (x, y) :: tr) := rfl

theorem evalList_nil (fuel : Nat) (b : Board) : evalList fuel b [] = some (b, []) := rfl

theorem evalList_cons (fuel : Nat) (b : Board) (p : Int × Int) (ps : List (Int × Int)) :
    evalList fuel b (p :: ps) =
      match evalFuel fuel b p.1 p.2 with
      | none => none
      | some (b1, tr1) =>
        match evalList fuel b1 ps with
        | none => none
        | some (b2, tr2) => some (b2, tr1 ++ tr2) := rfl

/-- `evaluate_tile` itself: fuel `size² + 1` always suffices (proved below),
so the default branch is never taken. -/
def evaluate_tile (b : Board) (x y : Int) : Board :=
  match evalFuel (b.size * b.size + 1) b x y with
  | some (b1, _) => b1
  | none => b

/-- The trace of positions `evaluate_tile` is invoked on during one
top-level evaluation. -/
def evaluateTrace (b : Board) (x y : Int) : List (Int × Int) :=
  match evalFuel (b.size * b.size + 1) b x y with
  | some (_, tr) => tr
  | none => []

/-- One iteration of the `while keep_playing` loop body, given the prompted
coordinates: look up the tile (`none` models the crash on an absent tile),
reject an already-revealed tile without mutating, otherwise set
`revealed = True`, run `check_if_mine`, and then — unconditionally, as in
the source — run `evaluate_tile`.  The third component records the kind the
selected tile had at the moment `evaluate_tile` was invoked on it
(`none` when evaluation was not reached this iteration). -/
def loopStep (b : Board) (x y : Int) : Option (Board × Bool × Option TileType) :=
  match get_tile b x y with
  | none => none
  | some t =>
    if t.revealed then some (b, true, none)
    else
      some
        (evaluate_tile (check_if_mine (setTile b x y { t with revealed := true }) x y).2 x y,
         (check_if_mine (setTile b x y { t with revealed := true }) x y).1,
         some (((check_if_mine (setTile b x y { t with revealed := true }) x y).2.tiles x y).tile_type))

/-! Basic lemmas about the primitive operations. -/

theorem setTile_size (b : Board) (x y : Int) (t : Tile) :
    (setTile b x y t).size = b.size := rfl

theorem setTile_self (b : Board) (x y : Int) (t : Tile) :
    (setTile b x y t).tiles x y = t := by
  simp [setTile]

theorem setTile_ne (b : Board) (x y i j : Int) (t : Tile) (h : ¬(i = x ∧ j = y)) :
    (setTile b x y t).tiles i j = b.tiles i j := by
  simp only [setTile]
  rw [if_neg h]

theorem get_tile_of_onBoard {b : Board} {x y : Int} (h : onBoard b x y) :
    get_tile b x y = some (b.tiles x y) := by
  obtain ⟨h1, h2, h3, h4⟩ := h
  unfold get_tile
  rw [if_neg (by omega), if_neg (by omega), if_pos ⟨h2, h4⟩]

theorem get_tile_of_not_onBoard {b : Board} {x y : Int} (h : ¬ onBoard b x y) :
    get_tile b x y = none := by
  unfold get_tile
  split_ifs with h1 h2 h3 <;> try rfl
  exact absurd ⟨by omega, h3.1, by omega, h3.2⟩ h

theorem mem_neighborOffsets_ne {x y : Int} {p : Int × Int}
    (h : p ∈ neighborOffsets x y) : p ≠ (x, y) := by
  simp only [neighborOffsets, List.mem_cons, List.not_mem_nil, or_false] at h
  rcases h with h | h | h | h | h | h | h | h <;>
    (subst h; simp only [ne_eq, Prod.mk.injEq, not_and]; omega)

theorem adjacent_filter_iff {b : Board} {u v : Int} :
    (match get_tile b u v with | none => false | some t => !t.revealed) = true ↔
      onBoard b u v ∧ (b.tiles u v).revealed = false := by
  by_cases hob : onBoard b u v
  · rw [get_tile_of_onBoard hob]
    simp [hob]
  · rw [get_tile_of_not_onBoard hob]
    simp [hob]

theorem mem_adjacent_tiles {b : Board} {x y : Int} {p : Int × Int} :
    p ∈ adjacent_tiles b x y ↔
      p ∈ neighborOffsets x y ∧ onBoard b p.1 p.2 ∧ (b.tiles p.1 p.2).revealed = false := by
  unfold adjacent_tiles
  rw [List.mem_filter, adjacent_filter_iff]

theorem mine_counter_eq_zero_iff {b : Board} {x y : Int} :
    mine_counter b x y = 0 ↔
      ∀ p ∈ adjacent_tiles b x y, (b.tiles p.1 p.2).tile_type ≠ TileType.mine := by
  unfold mine_counter
  rw [List.countP_eq_zero]
  simp

/-- The finite set of on-board, not-yet-revealed positions (the quantity the
flood-fill recursion shrinks). -/
def unrevFinset (b : Board) : Finset (Int × Int) :=
  (Finset.Icc (0 : ℤ) ((b.size : ℤ) - 1) ×ˢ Finset.Icc (0 : ℤ) ((b.size : ℤ) - 1)).filter
    fun p => (b.tiles p.1 p.2).revealed = false

theorem mem_unrevFinset {b : Board} {p : Int × Int} :
    p ∈ unrevFinset b ↔ onBoard b p.1 p.2 ∧ (b.tiles p.1 p.2).revealed = false := by
  unfold unrevFinset onBoard
  rw [Finset.mem_filter, Finset.mem_product, Finset.mem_Icc, Finset.mem_Icc]
  constructor
  · rintro ⟨⟨⟨h1, h2⟩, h3, h4⟩, h5⟩
    exact ⟨⟨h1, by omega, h3, by omega⟩, h5⟩
  · rintro ⟨⟨h1, h2, h3, h4⟩, h5⟩
    exact ⟨⟨⟨h1, by omega⟩, h3, by omega⟩, h5⟩

theorem card_unrevFinset_le (b : Board) : (unrevFinset b).card ≤ b.size * b.size := by
  have h1 : (unrevFinset b).card ≤
      ((Finset.Icc (0 : ℤ) ((b.size : ℤ) - 1)) ×ˢ (Finset.Icc (0 : ℤ) ((b.size : ℤ) - 1))).card :=
    Finset.card_filter_le _ _
  rw [Finset.card_product, Int.card_Icc] at h1
  have h2 : ((b.size : ℤ) - 1 + 1 - 0).toNat = b.size := by omega
  rw [h2] at h1
  exact h1

theorem card_unrevFinset_lt {b : Board} {x y : Int} (hob : onBoard b x y)
    (hrev : (b.tiles x y).revealed = true) :
    (unrevFinset b).card < b.size * b.size := by
  have hsub : unrevFinset b ⊆
      ((Finset.Icc (0 : ℤ) ((b.size : ℤ) - 1)) ×ˢ
        (Finset.Icc (0 : ℤ) ((b.size : ℤ) - 1))).erase (x, y) := by
    intro p hp
    rw [mem_unrevFinset] at hp
    rw [Finset.mem_erase]
    constructor
    · intro he
      rw [he] at hp
      rw [hp.2] at hrev
      exact Bool.false_ne_true hrev
    · obtain ⟨⟨a1, a2, a3, a4⟩, _⟩ := hp
      rw [Finset.mem_product, Finset.mem_Icc, Finset.mem_Icc]
      exact ⟨⟨a1, by omega⟩, a3, by omega⟩
  have h2 := Finset.card_le_card hsub
  have h3 : (x, y) ∈
      (Finset.Icc (0 : ℤ) ((b.size : ℤ) - 1)) ×ˢ (Finset.Icc (0 : ℤ) ((b.size : ℤ) - 1)) := by
    obtain ⟨a1, a2, a3, a4⟩ := hob
    rw [Finset.mem_product, Finset.mem_Icc, Finset.mem_Icc]
    exact ⟨⟨a1, by omega⟩, a3, by omega⟩
  rw [Finset.card_erase_of_mem h3, Finset.card_product, Int.card_Icc] at h2
  have h4 : 0 < b.size := by
    obtain ⟨a1, a2, _, _⟩ := hob
    omega
  have h5 : ((b.size : ℤ) - 1 + 1 - 0).toNat = b.size := by omega
  rw [h5] at h2
  have h6 : 0 < b.size * b.size := Nat.mul_pos h4 h4
  omega

theorem unrevFinset_setTile_rev (b : Board) (x y : Int) (t : Tile)
    (ht : t.revealed = true) :
    unrevFinset (setTile b x y t) = (unrevFinset b).erase (x, y) := by
  ext p
  rw [Finset.mem_erase, mem_unrevFinset, mem_unrevFinset]
  have hsize : onBoard (setTile b x y t) p.1 p.2 ↔ onBoard b p.1 p.2 := Iff.rfl
  by_cases hp : p.1 = x ∧ p.2 = y
  · have hpe : p = (x, y) := Prod.ext hp.1 hp.2
    rw [hsize]
    simp only [setTile]
    rw [if_pos hp, ht]
    simp [hpe]
  · have hpe : p ≠ (x, y) := by
      intro he
      exact hp ⟨by rw [he], by rw [he]⟩
    rw [hsize]
    simp only [setTile]
    rw [if_neg hp]
    simp [hpe]

/-- Board extension order: same size, and reveals are preserved. -/
def BoardLe (b c : Board) : Prop :=
  c.size = b.size ∧ ∀ i j : Int, (b.tiles i j).revealed = true → (c.tiles i j).revealed = true

theorem boardLe_rfl (b : Board) : BoardLe b b := ⟨rfl, fun _ _ h => h⟩

theorem boardLe_trans {a b c : Board} (h1 : BoardLe a b) (h2 : BoardLe b c) :
    BoardLe a c :=
  ⟨h2.1.trans h1.1, fun i j h => h2.2 i j (h1.2 i j h)⟩

theorem evalUpdate_le (b : Board) (x y : Int) (cnt : Nat) :
    BoardLe b (evalUpdate b x y cnt) := by
  refine ⟨rfl, fun i j h => ?_⟩
  unfold evalUpdate
  by_cases hp : i = x ∧ j = y
  · rw [setTile]
    simp only []
    rw [if_pos hp]
  · rw [setTile_ne _ _ _ _ _ _ hp]
    exact h

theorem unrev_subset_of_le {b c : Board} (h : BoardLe b c) :
    unrevFinset c ⊆ unrevFinset b := by
  intro p hp
  rw [mem_unrevFinset] at hp ⊢
  obtain ⟨hob, hrev⟩ := hp
  refine ⟨?_, ?_⟩
  · unfold onBoard at hob ⊢
    rw [h.1] at hob
    exact hob
  · cases hb : (b.tiles p.1 p.2).revealed with
    | false => rfl
    | true =>
      rw [h.2 p.1 p.2 hb] at hrev
      exact absurd hrev (by simp)

theorem unrevFinset_evalUpdate (b : Board) (x y : Int) (cnt : Nat) :
    unrevFinset (evalUpdate b x y cnt) = (unrevFinset b).erase (x, y) :=
  unrevFinset_setTile_rev b x y _ rfl

/-! Monotonicity: `evaluate_tile` never changes the size and never clears
a `revealed` flag. -/

theorem evalMono (fuel : Nat) :
    (∀ b x y r, evalFuel fuel b x y = some r → BoardLe b r.1) ∧
    (∀ b ps r, evalList fuel b ps = some r → BoardLe b r.1) := by
  induction fuel with
  | zero =>
    constructor
    · intro b x y r h
      rw [evalFuel_zero] at h
      exact absurd h (by simp)
    · intro b ps r h
      cases ps with
      | nil =>
        rw [evalList_nil] at h
        injection h with h
        subst h
        exact boardLe_rfl b
      | cons p ps' =>
        rw [evalList_cons, evalFuel_zero] at h
        exact absurd h (by simp)
  | succ f ih =>
    have hfun : ∀ b x y r, evalFuel (f + 1) b x y = some r → BoardLe b r.1 := by
      intro b x y r h
      rw [evalFuel_succ] at h
      split at h
      · injection h with h
        subst h
        exact evalUpdate_le b x y _
      · split at h
        · exact absurd h (by simp)
        · next b2 tr heq =>
          injection h with h
          subst h
          exact boardLe_trans (evalUpdate_le b x y _) (ih.2 _ _ (b2, tr) heq)
    refine ⟨hfun, ?_⟩
    intro b ps
    induction ps generalizing b with
    | nil =>
      intro r h
      rw [evalList_nil] at h
      injection h with h
      subst h
      exact boardLe_rfl b
    | cons p ps' ihl =>
      intro r h
      rw [evalList_cons] at h
      split at h
      · exact absurd h (by simp)
      · next b1 tr1 heq1 =>
        split at h
        · exact absurd h (by simp)
        · next b2 tr2 heq2 =>
          injection h with h
          subst h
          exact boardLe_trans (hfun _ _ _ (b1, tr1) heq1) (ihl b1 (b2, tr2) heq2)

/-! Frame lemma: a tile that is already revealed and is not the evaluated
tile itself is never touched again (its fields are frozen). -/

theorem evalFrame (fuel : Nat) :
    (∀ b x y r, evalFuel fuel b x y = some r →
      ∀ i j, (b.tiles i j).revealed = true → ¬(i = x ∧ j = y) →
        r.1.tiles i j = b.tiles i j) ∧
    (∀ b ps r, evalList fuel b ps = some r →
      ∀ i j, (b.tiles i j).revealed = true → (i, j) ∉ ps →
        r.1.tiles i j = b.tiles i j) := by
  induction fuel with
  | zero =>
    constructor
    · intro b x y r h
      rw [evalFuel_zero] at h
      exact absurd h (by simp)
    · intro b ps r h i j hrev hmem
      cases ps with
      | nil =>
        rw [evalList_nil] at h
        injection h with h
        subst h
        rfl
      | cons p ps' =>
        rw [evalList_cons, evalFuel_zero] at h
        exact absurd h (by simp)
  | succ f ih =>
    have hfun : ∀ b x y r, evalFuel (f + 1) b x y = some r →
        ∀ i j, (b.tiles i j).revealed = true → ¬(i = x ∧ j = y) →
          r.1.tiles i j = b.tiles i j := by
      intro b x y r h i j hrev hne
      rw [evalFuel_succ] at h
      split at h
      · injection h with h
        subst h
        exact setTile_ne _ _ _ _ _ _ hne
      · split at h
        · exact absurd h (by simp)
        · next b2 tr heq =>
          injection h with h
          subst h
          have hb1 : (evalUpdate b x y (mine_counter b x y)).tiles i j = b.tiles i j :=
            setTile_ne _ _ _ _ _ _ hne
          have hrev1 : ((evalUpdate b x y (mine_counter b x y)).tiles i j).revealed = true := by
            rw [hb1]; exact hrev
          have hnm : (i, j) ∉ adjacent_tiles b x y := by
            intro hm
            have := (mem_adjacent_tiles.mp hm).2.2
            simp only [] at this
            rw [hrev] at this
            exact Bool.true_eq_false.mp this
          have := ih.2 _ _ (b2, tr) heq i j hrev1 hnm
          simp only [] at this
          rw [this, hb1]
    refine ⟨hfun, ?_⟩
    intro b ps
    induction ps generalizing b with
    | nil =>
      intro r h i j hrev hmem
      rw [evalList_nil] at h
      injection h with h
      subst h
      rfl
    | cons p ps' ihl =>
      intro r h i j hrev hmem
      rw [evalList_cons] at h
      split at h
      · exact absurd h (by simp)
      · next b1 tr1 heq1 =>
        split at h
        · exact absurd h (by simp)
        · next b2 tr2 heq2 =>
          injection h with h
          subst h
          rw [List.mem_cons, not_or] at hmem
          have hne : ¬(i = p.1 ∧ j = p.2) := by
            intro hij
            exact hmem.1 (Prod.ext hij.1 hij.2)
          have hb1 : b1.tiles i j = b.tiles i j :=
            hfun _ _ _ (b1, tr1) heq1 i j hrev hne
          have hrev1 : (b1.tiles i j).revealed = true := by rw [hb1]; exact hrev
          have := ihl b1 (b2, tr2) heq2 i j hrev1 hmem.2
          simp only [] at this
          rw [this, hb1]

/-! Fuel sufficiency: fuel exceeding the number of other unrevealed tiles
never runs out — this is the "call depth is bounded by the number of
tiles" argument (each call reveals its tile before recursing). -/

theorem child_card_lt {b : Board} {x y : Int} {f cnt : Nat}
    (h : ((unrevFinset b).erase (x, y)).card < f + 1) :
    ∀ p ∈ adjacent_tiles b x y,
      ((unrevFinset (evalUpdate b x y cnt)).erase p).card < f := by
  intro p hp
  rw [unrevFinset_evalUpdate]
  have hpm := mem_adjacent_tiles.mp hp
  have hpu : p ∈ unrevFinset b := mem_unrevFinset.mpr ⟨hpm.2.1, hpm.2.2⟩
  have hpne : p ≠ (x, y) := mem_neighborOffsets_ne hpm.1
  have hpu1 : p ∈ (unrevFinset b).erase (x, y) := Finset.mem_erase.mpr ⟨hpne, hpu⟩
  rw [Finset.card_erase_of_mem hpu1]
  have h1 : 1 ≤ ((unrevFinset b).erase (x, y)).card := Finset.card_pos.mpr ⟨p, hpu1⟩
  omega

theorem evalSufficient (fuel : Nat) :
    (∀ b x y, ((unrevFinset b).erase (x, y)).card < fuel →
      (evalFuel fuel b x y).isSome = true) ∧
    (∀ b ps, (∀ p ∈ ps, ((unrevFinset b).erase p).card < fuel) →
      (evalList fuel b ps).isSome = true) := by
  induction fuel with
  | zero =>
    constructor
    · intro b x y h
      exact absurd h (Nat.not_lt_zero _)
    · intro b ps h
      cases ps with
      | nil => rw [evalList_nil]; rfl
      | cons p ps' =>
        exact absurd (h p (List.mem_cons_self p ps')) (Nat.not_lt_zero _)
  | succ f ih =>
    have hfun : ∀ b x y, ((unrevFinset b).erase (x, y)).card < f + 1 →
        (evalFuel (f + 1) b x y).isSome = true := by
      intro b x y h
      rw [evalFuel_succ]
      by_cases hc : 0 < mine_counter b x y
      · rw [if_pos hc]
        rfl
      · rw [if_neg hc]
        have hlist : (evalList f (evalUpdate b x y (mine_counter b x y))
            (adjacent_tiles b x y)).isSome = true :=
          ih.2 _ _ (child_card_lt h)
        cases hl : evalList f (evalUpdate b x y (mine_counter b x y)) (adjacent_tiles b x y) with
        | none =>
          rw [hl] at hlist
          exact absurd hlist (by simp)
        | some r =>
          obtain ⟨b2, tr⟩ := r
          rfl
    refine ⟨hfun, ?_⟩
    intro b ps
    induction ps generalizing b with
    | nil =>
      intro h
      rw [evalList_nil]
      rfl
    | cons p ps' ihl =>
      intro h
      rw [evalList_cons]
      have hhead : (evalFuel (f + 1) b p.1 p.2).isSome = true :=
        hfun b p.1 p.2 (h p (List.mem_cons_self p ps'))
      cases h1 : evalFuel (f + 1) b p.1 p.2 with
      | none =>
        rw [h1] at hhead
        exact absurd hhead (by simp)
      | some r1 =>
        obtain ⟨b1, tr1⟩ := r1
        dsimp only
        have hle : BoardLe b b1 := (evalMono (f + 1)).1 _ _ _ (b1, tr1) h1
        have htail : (evalList (f + 1) b1 ps').isSome = true := by
          apply ihl
          intro q hq
          have hsub : (unrevFinset b1).erase q ⊆ (unrevFinset b).erase q :=
            Finset.erase_subset_erase _ (unrev_subset_of_le hle)
          have := Finset.card_le_card hsub
          have hq2 := h q (List.mem_cons_of_mem p hq)
          omega
        cases h2 : evalList (f + 1) b1 ps' with
        | none =>
          rw [h2] at htail
          exact absurd htail (by simp)
        | some r2 =>
          obtain ⟨b2, tr2⟩ := r2
          rfl

/-! Fuel stability: above the sufficient bound, the result does not depend
on the fuel, so `evaluate_tile`'s fixed fuel `size² + 1` computes *the*
value of the recursion. -/

theorem evalStable (fuel : Nat) :
    (∀ g b x y, fuel ≤ g → ((unrevFinset b).erase (x, y)).card < fuel →
      evalFuel g b x y = evalFuel fuel b x y) ∧
    (∀ g b ps, fuel ≤ g → (∀ p ∈ ps, ((unrevFinset b).erase p).card < fuel) →
      evalList g b ps = evalList fuel b ps) := by
  induction fuel with
  | zero =>
    constructor
    · intro g b x y _ h
      exact absurd h (Nat.not_lt_zero _)
    · intro g b ps _ h
      cases ps with
      | nil => rw [evalList_nil, evalList_nil]
      | cons p ps' =>
        exact absurd (h p (List.mem_cons_self p ps')) (Nat.not_lt_zero _)
  | succ f ih =>
    have hfun : ∀ g b x y, f + 1 ≤ g → ((unrevFinset b).erase (x, y)).card < f + 1 →
        evalFuel g b x y = evalFuel (f + 1) b x y := by
      intro g b x y hg h
      obtain ⟨g', rfl⟩ : ∃ g', g = g' + 1 := ⟨g - 1, by omega⟩
      rw [evalFuel_succ]
      rw [evalFuel_succ]
      by_cases hc : 0 < mine_counter b x y
      · rw [if_pos hc, if_pos hc]
      · rw [if_neg hc, if_neg hc]
        rw [ih.2 g' _ _ (by omega) (child_card_lt h)]
    refine ⟨hfun, ?_⟩
    intro g b ps hg
    induction ps generalizing b with
    | nil =>
      intro _
      rw [evalList_nil, evalList_nil]
    | cons p ps' ihl =>
      intro hps
      rw [evalList_cons]
      rw [evalList_cons]
      rw [hfun g b p.1 p.2 hg (hps p (List.mem_cons_self p ps'))]
      cases h1 : evalFuel (f + 1) b p.1 p.2 with
      | none => rfl
      | some r1 =>
        obtain ⟨b1, tr1⟩ := r1
        dsimp only
        have hle : BoardLe b b1 := (evalMono (f + 1)).1 _ _ _ (b1, tr1) h1
        have htl : ∀ q ∈ ps', ((unrevFinset b1).erase q).card < f + 1 := by
          intro q hq
          have hsub : (unrevFinset b1).erase q ⊆ (unrevFinset b).erase q :=
            Finset.erase_subset_erase _ (unrev_subset_of_le hle)
          have := Finset.card_le_card hsub
          have hq2 := hps q (List.mem_cons_of_mem p hq)
          omega
        rw [ihl b1 htl]

/-- The standard fuel `size² + 1` always exceeds the number of other
unrevealed tiles, so the recursion always completes. -/
theorem evalFuel_total (b : Board) (x y : Int) :
    (evalFuel (b.size * b.size + 1) b x y).isSome = true := by
  apply (evalSufficient (b.size * b.size + 1)).1
  have h1 : ((unrevFinset b).erase (x, y)).card ≤ (unrevFinset b).card :=
    Finset.card_erase_le
  have h2 := card_unrevFinset_le b
  omega

/-- `evaluate_tile` and `evaluateTrace` are the components of the completed
recursion. -/
theorem evaluate_tile_spec (b : Board) (x y : Int) :
    evalFuel (b.size * b.size + 1) b x y = some (evaluate_tile b x y, evaluateTrace b x y) := by
  have h := evalFuel_total b x y
  cases he : evalFuel (b.size * b.size + 1) b x y with
  | none => rw [he] at h; exact absurd h (by simp)
  | some r =>
    obtain ⟨b1, tr⟩ := r
    unfold evaluate_tile evaluateTrace
    rw [he]

/-! The "true" adjacency count (over all on-board neighbours, revealed or
not) and the invariant linking stored counts to it. -/

/-- Number of on-board neighbours of `(x, y)` whose kind is mine. -/
def trueCount (b : Board) (x y : Int) : Nat :=
  (neighborOffsets x y).countP fun p =>
    decide (onBoard b p.1 p.2 ∧ (b.tiles p.1 p.2).tile_type = TileType.mine)

/-- Invariant maintained by the flood fill: every revealed on-board tile is
a non-mine whose stored count equals its true adjacency count. -/
def InvB (b : Board) : Prop :=
  ∀ i j : Int, onBoard b i j → (b.tiles i j).revealed = true →
    (b.tiles i j).tile_type ≠ TileType.mine ∧
    (b.tiles i j).n_adjacent_mines = trueCount b i j

/-- A board with no tile revealed satisfies the invariant. -/
theorem invB_of_fresh {b : Board} (h : ∀ i j, onBoard b i j → (b.tiles i j).revealed = false) :
    InvB b := by
  intro i j hob hrev
  rw [h i j hob] at hrev
  exact absurd hrev (by simp)

theorem trueCount_congr {b c : Board} (hsize : c.size = b.size)
    (hmine : ∀ i j : Int,
      (c.tiles i j).tile_type = TileType.mine ↔ (b.tiles i j).tile_type = TileType.mine)
    (x y : Int) : trueCount c x y = trueCount b x y := by
  unfold trueCount
  apply List.countP_congr
  intro p _
  rw [decide_eq_true_eq, decide_eq_true_eq]
  have hob : onBoard c p.1 p.2 ↔ onBoard b p.1 p.2 := by
    unfold onBoard
    rw [hsize]
  rw [hob, hmine p.1 p.2]

/-- When no on-board mine is revealed, the source's count over unrevealed
neighbours equals the true adjacency count. -/
theorem mine_counter_eq_trueCount {b : Board}
    (hnrm : ∀ i j, onBoard b i j → (b.tiles i j).tile_type = TileType.mine →
      (b.tiles i j).revealed = false)
    (x y : Int) : mine_counter b x y = trueCount b x y := by
  unfold mine_counter adjacent_tiles trueCount
  rw [List.countP_filter]
  apply List.countP_congr
  intro p _
  constructor
  · intro h
    rw [Bool.and_eq_true] at h
    obtain ⟨h1, h2⟩ := h
    rw [decide_eq_true_eq] at h1
    have := adjacent_filter_iff.mp h2
    rw [decide_eq_true_eq]
    exact ⟨this.1, h1⟩
  · intro h
    rw [decide_eq_true_eq] at h
    rw [Bool.and_eq_true]
    refine ⟨by rw [decide_eq_true_eq]; exact h.2, ?_⟩
    exact adjacent_filter_iff.mpr ⟨h.1, hnrm p.1 p.2 h.1 h.2⟩

theorem invB_noRevMine {b : Board} (hinv : InvB b) :
    ∀ i j, onBoard b i j → (b.tiles i j).tile_type = TileType.mine →
      (b.tiles i j).revealed = false := by
  intro i j hob hmine
  cases hrev : (b.tiles i j).revealed with
  | false => rfl
  | true => exact absurd hmine (hinv i j hob hrev).1

/-- The invariant carries over one `evalUpdate` step, when the updated tile
is not a mine. -/
theorem invB_evalUpdate {b : Board} {x y : Int} (hinv : InvB b)
    (hnm : (b.tiles x y).tile_type ≠ TileType.mine) :
    InvB (evalUpdate b x y (mine_counter b x y)) ∧
    ∀ i j, ((evalUpdate b x y (mine_counter b x y)).tiles i j).tile_type = TileType.mine ↔
      (b.tiles i j).tile_type = TileType.mine := by
  have hiff : ∀ i j, ((evalUpdate b x y (mine_counter b x y)).tiles i j).tile_type =
      TileType.mine ↔ (b.tiles i j).tile_type = TileType.mine := by
    intro i j
    by_cases hij : i = x ∧ j = y
    · unfold evalUpdate
      rw [setTile]
      simp only []
      rw [if_pos hij, hij.1, hij.2]
      constructor
      · intro h
        exact absurd h (by simp)
      · intro h
        exact absurd h hnm
    · unfold evalUpdate
      rw [setTile_ne _ _ _ _ _ _ hij]
  have htc : ∀ i j, trueCount (evalUpdate b x y (mine_counter b x y)) i j = trueCount b i j :=
    trueCount_congr rfl hiff
  refine ⟨?_, hiff⟩
  intro i j hob hrev
  by_cases hij : i = x ∧ j = y
  · have hteq : (evalUpdate b x y (mine_counter b x y)).tiles i j =
        { tile_type := TileType.empty, revealed := true,
          n_adjacent_mines := mine_counter b x y } := by
      unfold evalUpdate
      rw [setTile]
      simp only []
      rw [if_pos hij]
    rw [hteq]
    refine ⟨by simp, ?_⟩
    rw [htc i j, hij.1, hij.2]
    exact mine_counter_eq_trueCount (invB_noRevMine hinv) x y
  · have hteq : (evalUpdate b x y (mine_counter b x y)).tiles i j = b.tiles i j := by
      unfold evalUpdate
      rw [setTile_ne _ _ _ _ _ _ hij]
    rw [hteq] at hrev ⊢
    have hob' : onBoard b i j := hob
    obtain ⟨h1, h2⟩ := hinv i j hob' hrev
    exact ⟨h1, by rw [htc i j]; exact h2⟩

/-- Joint invariant preservation for the flood fill: if the evaluated tile
(resp. every listed tile) is not a mine, the invariant is preserved and the
set of mine positions is unchanged. -/
theorem evalInv (fuel : Nat) :
    (∀ b x y r, evalFuel fuel b x y = some r → InvB b →
      (b.tiles x y).tile_type ≠ TileType.mine →
      InvB r.1 ∧ ∀ i j : Int, (r.1.tiles i j).tile_type = TileType.mine ↔
        (b.tiles i j).tile_type = TileType.mine) ∧
    (∀ b ps r, evalList fuel b ps = some r → InvB b →
      (∀ p ∈ ps, (b.tiles p.1 p.2).tile_type ≠ TileType.mine) →
      InvB r.1 ∧ ∀ i j : Int, (r.1.tiles i j).tile_type = TileType.mine ↔
        (b.tiles i j).tile_type = TileType.mine) := by
  induction fuel with
  | zero =>
    constructor
    · intro b x y r h
      rw [evalFuel_zero] at h
      exact absurd h (by simp)
    · intro b ps r h hinv hnm
      cases ps with
      | nil =>
        rw [evalList_nil] at h
        injection h with h
        subst h
        exact ⟨hinv, fun i j => Iff.rfl⟩
      | cons p ps' =>
        rw [evalList_cons, evalFuel_zero] at h
        exact absurd h (by simp)
  | succ f ih =>
    have hfun : ∀ b x y r, evalFuel (f + 1) b x y = some r → InvB b →
        (b.tiles x y).tile_type ≠ TileType.mine →
        InvB r.1 ∧ ∀ i j : Int, (r.1.tiles i j).tile_type = TileType.mine ↔
          (b.tiles i j).tile_type = TileType.mine := by
      intro b x y r h hinv hnm
      rw [evalFuel_succ] at h
      split at h
      · injection h with h
        subst h
        exact invB_evalUpdate hinv hnm
      · next hc =>
        split at h
        · exact absurd h (by simp)
        · next b2 tr heq =>
          injection h with h
          subst h
          obtain ⟨hinv1, hiff1⟩ := invB_evalUpdate hinv hnm
          have hcnt : mine_counter b x y = 0 := by omega
          have hchild : ∀ p ∈ adjacent_tiles b x y,
              ((evalUpdate b x y (mine_counter b x y)).tiles p.1 p.2).tile_type ≠
                TileType.mine := by
            intro p hp hmine
            exact mine_counter_eq_zero_iff.mp hcnt p hp ((hiff1 p.1 p.2).mp hmine)
          obtain ⟨hinv2, hiff2⟩ := ih.2 _ _ (b2, tr) heq hinv1 hchild
          refine ⟨hinv2, fun i j => ?_⟩
          rw [hiff2 i j, hiff1 i j]
    refine ⟨hfun, ?_⟩
    intro b ps
    induction ps generalizing b with
    | nil =>
      intro r h hinv hnm
      rw [evalList_nil] at h
      injection h with h
      subst h
      exact ⟨hinv, fun i j => Iff.rfl⟩
    | cons p ps' ihl =>
      intro r h hinv hnm
      rw [evalList_cons] at h
      split at h
      · exact absurd h (by simp)
      · next b1 tr1 heq1 =>
        split at h
        · exact absurd h (by simp)
        · next b2 tr2 heq2 =>
          injection h with h
          subst h
          obtain ⟨hinv1, hiff1⟩ :=
            hfun _ _ _ (b1, tr1) heq1 hinv (hnm p (List.mem_cons_self p ps'))
          have htl : ∀ q ∈ ps', (b1.tiles q.1 q.2).tile_type ≠ TileType.mine := by
            intro q hq hmine
            exact hnm q (List.mem_cons_of_mem p hq) ((hiff1 q.1 q.2).mp hmine)
          obtain ⟨hinv2, hiff2⟩ := ihl b1 (b2, tr2) heq2 hinv1 htl
          refine ⟨hinv2, fun i j => ?_⟩
          rw [hiff2 i j, hiff1 i j]

/-! Each `evaluate_tile` call reveals its own argument, and the sibling loop
reveals every listed position. -/

theorem eval_reveals_arg {fuel : Nat} {b : Board} {x y : Int}
    {r : Board × List (Int × Int)} (h : evalFuel fuel b x y = some r) :
    (r.1.tiles x y).revealed = true := by
  cases fuel with
  | zero =>
    rw [evalFuel_zero] at h
    exact absurd h (by simp)
  | succ f =>
    rw [evalFuel_succ] at h
    split at h
    · injection h with h
      subst h
      show ((evalUpdate b x y (mine_counter b x y)).tiles x y).revealed = true
      unfold evalUpdate
      rw [setTile_self]
    · split at h
      · exact absurd h (by simp)
      · next b2 tr heq =>
        injection h with h
        subst h
        have hle := (evalMono f).2 _ _ (b2, tr) heq
        apply hle.2
        unfold evalUpdate
        rw [setTile_self]

theorem evalList_reveals_args {fuel : Nat} :
    ∀ {b : Board} {ps : List (Int × Int)} {r : Board × List (Int × Int)},
      evalList fuel b ps = some r →
      ∀ p ∈ ps, (r.1.tiles p.1 p.2).revealed = true := by
  intro b ps
  induction ps generalizing b with
  | nil =>
    intro r _ p hp
    exact absurd hp (List.not_mem_nil p)
  | cons q ps' ihl =>
    intro r h p hp
    rw [evalList_cons] at h
    split at h
    · exact absurd h (by simp)
    · next b1 tr1 heq1 =>
      split at h
      · exact absurd h (by simp)
      · next b2 tr2 heq2 =>
        injection h with h
        subst h
        rcases List.mem_cons.mp hp with hpq | hp'
        · subst hpq
          have h1 : (b1.tiles p.1 p.2).revealed = true := eval_reveals_arg heq1
          exact ((evalMono fuel).2 _ _ (b2, tr2) heq2).2 p.1 p.2 h1
        · exact ihl heq2 p hp'

/-! Completeness half of the flood fill: any tile revealed by the call whose
true adjacency count is zero ends up with all of its on-board neighbours
revealed (because its evaluation recursed into all of them). -/

theorem evalZeroNbrs (fuel : Nat) :
    (∀ b x y r, evalFuel fuel b x y = some r → InvB b →
      (b.tiles x y).tile_type ≠ TileType.mine →
      ∀ i j : Int, (r.1.tiles i j).revealed = true →
        (b.tiles i j).revealed = true ∨
        (trueCount b i j = 0 →
          ∀ p ∈ neighborOffsets i j, onBoard b p.1 p.2 →
            (r.1.tiles p.1 p.2).revealed = true)) ∧
    (∀ b ps r, evalList fuel b ps = some r → InvB b →
      (∀ p ∈ ps, (b.tiles p.1 p.2).tile_type ≠ TileType.mine) →
      ∀ i j : Int, (r.1.tiles i j).revealed = true →
        (b.tiles i j).revealed = true ∨
        (trueCount b i j = 0 →
          ∀ p ∈ neighborOffsets i j, onBoard b p.1 p.2 →
            (r.1.tiles p.1 p.2).revealed = true)) := by
  induction fuel with
  | zero =>
    constructor
    · intro b x y r h
      rw [evalFuel_zero] at h
      exact absurd h (by simp)
    · intro b ps r h hinv hnm i j hrev
      cases ps with
      | nil =>
        rw [evalList_nil] at h
        injection h with h
        subst h
        exact Or.inl hrev
      | cons p ps' =>
        rw [evalList_cons, evalFuel_zero] at h
        exact absurd h (by simp)
  | succ f ih =>
    have hfun : ∀ b x y r, evalFuel (f + 1) b x y = some r → InvB b →
        (b.tiles x y).tile_type ≠ TileType.mine →
        ∀ i j : Int, (r.1.tiles i j).revealed = true →
          (b.tiles i j).revealed = true ∨
          (trueCount b i j = 0 →
            ∀ p ∈ neighborOffsets i j, onBoard b p.1 p.2 →
              (r.1.tiles p.1 p.2).revealed = true) := by
      intro b x y r h hinv hnm i j hrev
      have hmc : mine_counter b x y = trueCount b x y :=
        mine_counter_eq_trueCount (invB_noRevMine hinv) x y
      rw [evalFuel_succ] at h
      split at h
      · next hc =>
        injection h with h
        subst h
        by_cases hij : i = x ∧ j = y
        · refine Or.inr fun h0 => absurd h0 ?_
          rw [hij.1, hij.2, ← hmc]
          omega
        · refine Or.inl ?_
          have := setTile_ne b x y i j
            { tile_type := TileType.empty, revealed := true,
              n_adjacent_mines := mine_counter b x y } hij
          unfold evalUpdate at hrev
          rw [this] at hrev
          exact hrev
      · next hc =>
        split at h
        · exact absurd h (by simp)
        · next b2 tr heq =>
          injection h with h
          subst h
          have hcnt : mine_counter b x y = 0 := by omega
          obtain ⟨hinv1, hiff1⟩ := invB_evalUpdate hinv hnm
          have hchild : ∀ p ∈ adjacent_tiles b x y,
              ((evalUpdate b x y (mine_counter b x y)).tiles p.1 p.2).tile_type ≠
                TileType.mine := by
            intro p hp hmine
            exact mine_counter_eq_zero_iff.mp hcnt p hp ((hiff1 p.1 p.2).mp hmine)
          have hle1 := (evalMono f).2 _ _ (b2, tr) heq
          cases hrevb : (b.tiles i j).revealed with
          | true => exact Or.inl rfl
          | false =>
            refine Or.inr fun h0 p hp hob => ?_
            by_cases hij : i = x ∧ j = y
            · cases hrevb1 :
                  ((evalUpdate b x y (mine_counter b x y)).tiles p.1 p.2).revealed with
              | true => exact hle1.2 p.1 p.2 hrevb1
              | false =>
                have hpne : ¬(p.1 = x ∧ p.2 = y) := by
                  intro hpxy
                  have : ((evalUpdate b x y (mine_counter b x y)).tiles p.1 p.2).revealed
                      = true := by
                    unfold evalUpdate
                    rw [setTile]
                    simp only []
                    rw [if_pos hpxy]
                  rw [this] at hrevb1
                  exact Bool.true_eq_false.mp hrevb1
                have hpb : (b.tiles p.1 p.2).revealed = false := by
                  have := setTile_ne b x y p.1 p.2
                    { tile_type := TileType.empty, revealed := true,
                      n_adjacent_mines := mine_counter b x y } hpne
                  unfold evalUpdate at hrevb1
                  rw [this] at hrevb1
                  exact hrevb1
                have hpadj : p ∈ adjacent_tiles b x y := by
                  rw [mem_adjacent_tiles]
                  rw [hij.1, hij.2] at hp
                  exact ⟨hp, hob, hpb⟩
                exact evalList_reveals_args heq p hpadj
            · have hrevb1 : ((evalUpdate b x y (mine_counter b x y)).tiles i j).revealed
                  = false := by
                have := setTile_ne b x y i j
                  { tile_type := TileType.empty, revealed := true,
                    n_adjacent_mines := mine_counter b x y } hij
                unfold evalUpdate
                rw [this]
                exact hrevb
              rcases ih.2 _ _ (b2, tr) heq hinv1 hchild i j hrev with hl | hr
              · rw [hrevb1] at hl
                exact absurd hl (by simp)
              · have hsz0 : (evalUpdate b x y (mine_counter b x y)).size = b.size := rfl
                have h0' : trueCount (evalUpdate b x y (mine_counter b x y)) i j = 0 := by
                  rw [trueCount_congr hsz0 hiff1 i j]
                  exact h0
                exact hr h0' p hp hob
    refine ⟨hfun, ?_⟩
    intro b ps
    induction ps generalizing b with
    | nil =>
      intro r h hinv hnm i j hrev
      rw [evalList_nil] at h
      injection h with h
      subst h
      exact Or.inl hrev
    | cons q ps' ihl =>
      intro r h hinv hnm i j hrev
      rw [evalList_cons] at h
      split at h
      · exact absurd h (by simp)
      · next b1 tr1 heq1 =>
        split at h
        · exact absurd h (by simp)
        · next b2 tr2 heq2 =>
          injection h with h
          subst h
          have hnmq : (b.tiles q.1 q.2).tile_type ≠ TileType.mine :=
            hnm q (List.mem_cons_self q ps')
          obtain ⟨hinv1, hiff1⟩ := (evalInv (f + 1)).1 _ _ _ (b1, tr1) heq1 hinv hnmq
          have htl : ∀ p ∈ ps', (b1.tiles p.1 p.2).tile_type ≠ TileType.mine := by
            intro p hp hmine
            exact hnm p (List.mem_cons_of_mem q hp) ((hiff1 p.1 p.2).mp hmine)
          have hsz : b1.size = b.size := ((evalMono (f + 1)).1 _ _ _ (b1, tr1) heq1).1
          have hle2 := (evalMono (f + 1)).2 _ _ (b2, tr2) heq2
          rcases ihl b1 (b2, tr2) heq2 hinv1 htl i j hrev with hl | hr
          · rcases hfun _ _ _ (b1, tr1) heq1 hinv hnmq i j hl with hll | hlr
            · exact Or.inl hll
            · refine Or.inr fun h0 p hp hob => ?_
              exact hle2.2 p.1 p.2 (hlr h0 p hp hob)
          · refine Or.inr fun h0 p hp hob => ?_
            have h0' : trueCount b1 i j = 0 := by
              rw [trueCount_congr hsz hiff1 i j]
              exact h0
            have hob' : onBoard b1 p.1 p.2 := by
              unfold onBoard at hob ⊢
              rw [hsz]
              exact hob
            exact hr h0' p hp hob'

/-! Soundness half of the flood fill: newly revealed positions stay inside
any family `G` that contains the evaluated tile and is closed under
stepping from a zero-count member to an on-board neighbour. -/

theorem evalSound (fuel : Nat) :
    (∀ b x y r, evalFuel fuel b x y = some r →
      ∀ (G : Int × Int → Prop) (κ : Int → Int → Nat) (N : Nat),
        InvB b → (b.tiles x y).tile_type ≠ TileType.mine →
        b.size = N → (∀ i j : Int, trueCount b i j = κ i j) →
        G (x, y) →
        (∀ p q : Int × Int, G p → κ p.1 p.2 = 0 → q ∈ neighborOffsets p.1 p.2 →
          0 ≤ q.1 ∧ q.1 < (N : Int) ∧ 0 ≤ q.2 ∧ q.2 < (N : Int) → G q) →
        ∀ i j : Int, (r.1.tiles i j).revealed = true →
          (b.tiles i j).revealed = true ∨ G (i, j)) ∧
    (∀ b ps r, evalList fuel b ps = some r →
      ∀ (G : Int × Int → Prop) (κ : Int → Int → Nat) (N : Nat),
        InvB b → b.size = N → (∀ i j : Int, trueCount b i j = κ i j) →
        (∀ p ∈ ps, (b.tiles p.1 p.2).tile_type ≠ TileType.mine ∧ G p) →
        (∀ p q : Int × Int, G p → κ p.1 p.2 = 0 → q ∈ neighborOffsets p.1 p.2 →
          0 ≤ q.1 ∧ q.1 < (N : Int) ∧ 0 ≤ q.2 ∧ q.2 < (N : Int) → G q) →
        ∀ i j : Int, (r.1.tiles i j).revealed = true →
          (b.tiles i j).revealed = true ∨ G (i, j)) := by
  induction fuel with
  | zero =>
    constructor
    · intro b x y r h
      rw [evalFuel_zero] at h
      exact absurd h (by simp)
    · intro b ps r h G κ N _ _ _ _ _ i j hrev
      cases ps with
      | nil =>
        rw [evalList_nil] at h
        injection h with h
        subst h
        exact Or.inl hrev
      | cons p ps' =>
        rw [evalList_cons, evalFuel_zero] at h
        exact absurd h (by simp)
  | succ f ih =>
    have hfun : ∀ b x y r, evalFuel (f + 1) b x y = some r →
        ∀ (G : Int × Int → Prop) (κ : Int → Int → Nat) (N : Nat),
          InvB b → (b.tiles x y).tile_type ≠ TileType.mine →
          b.size = N → (∀ i j : Int, trueCount b i j = κ i j) →
          G (x, y) →
          (∀ p q : Int × Int, G p → κ p.1 p.2 = 0 → q ∈ neighborOffsets p.1 p.2 →
            0 ≤ q.1 ∧ q.1 < (N : Int) ∧ 0 ≤ q.2 ∧ q.2 < (N : Int) → G q) →
          ∀ i j : Int, (r.1.tiles i j).revealed = true →
            (b.tiles i j).revealed = true ∨ G (i, j) := by
      intro b x y r h G κ N hinv hnm hN hκ hGt hcl i j hrev
      have hmc : mine_counter b x y = trueCount b x y :=
        mine_counter_eq_trueCount (invB_noRevMine hinv) x y
      rw [evalFuel_succ] at h
      split at h
      · injection h with h
        subst h
        by_cases hij : i = x ∧ j = y
        · refine Or.inr ?_
          have : (i, j) = (x, y) := Prod.ext hij.1 hij.2
          rw [this]
          exact hGt
        · refine Or.inl ?_
          have := setTile_ne b x y i j
            { tile_type := TileType.empty, revealed := true,
              n_adjacent_mines := mine_counter b x y } hij
          unfold evalUpdate at hrev
          rw [this] at hrev
          exact hrev
      · next hc =>
        split at h
        · exact absurd h (by simp)
        · next b2 tr heq =>
          injection h with h
          subst h
          by_cases hij : i = x ∧ j = y
          · refine Or.inr ?_
            have : (i, j) = (x, y) := Prod.ext hij.1 hij.2
            rw [this]
            exact hGt
          · have hcnt : mine_counter b x y = 0 := by omega
            obtain ⟨hinv1, hiff1⟩ := invB_evalUpdate hinv hnm
            have hsz0 : (evalUpdate b x y (mine_counter b x y)).size = b.size := rfl
            have hκ1 : ∀ u v : Int,
                trueCount (evalUpdate b x y (mine_counter b x y)) u v = κ u v := by
              intro u v
              rw [trueCount_congr hsz0 hiff1 u v]
              exact hκ u v
            have hargs : ∀ p ∈ adjacent_tiles b x y,
                ((evalUpdate b x y (mine_counter b x y)).tiles p.1 p.2).tile_type ≠
                  TileType.mine ∧ G p := by
              intro p hp
              constructor
              · intro hmine
                exact mine_counter_eq_zero_iff.mp hcnt p hp ((hiff1 p.1 p.2).mp hmine)
              · obtain ⟨hpnbr, hpob, _⟩ := mem_adjacent_tiles.mp hp
                refine hcl (x, y) p hGt ?_ hpnbr ?_
                · rw [← hκ x y, ← hmc]
                  exact hcnt
                · obtain ⟨a1, a2, a3, a4⟩ := hpob
                  rw [hN] at a2 a4
                  exact ⟨a1, a2, a3, a4⟩
            rcases ih.2 _ _ (b2, tr) heq G κ N hinv1 (hsz0.trans hN) hκ1 hargs hcl i j
                hrev with hl | hr
            · refine Or.inl ?_
              have := setTile_ne b x y i j
                { tile_type := TileType.empty, revealed := true,
                  n_adjacent_mines := mine_counter b x y } hij
              unfold evalUpdate at hl
              rw [this] at hl
              exact hl
            · exact Or.inr hr
    refine ⟨hfun, ?_⟩
    intro b ps
    induction ps generalizing b with
    | nil =>
      intro r h G κ N _ _ _ _ _ i j hrev
      rw [evalList_nil] at h
      injection h with h
      subst h
      exact Or.inl hrev
    | cons q ps' ihl =>
      intro r h G κ N hinv hN hκ hargs hcl i j hrev
      rw [evalList_cons] at h
      split at h
      · exact absurd h (by simp)
      · next b1 tr1 heq1 =>
        split at h
        · exact absurd h (by simp)
        · next b2 tr2 heq2 =>
          injection h with h
          subst h
          obtain ⟨hnmq, hGq⟩ := hargs q (List.mem_cons_self q ps')
          obtain ⟨hinv1, hiff1⟩ := (evalInv (f + 1)).1 _ _ _ (b1, tr1) heq1 hinv hnmq
          have hsz : b1.size = b.size := ((evalMono (f + 1)).1 _ _ _ (b1, tr1) heq1).1
          have hκ1 : ∀ u v : Int, trueCount b1 u v = κ u v := by
            intro u v
            rw [trueCount_congr hsz hiff1 u v]
            exact hκ u v
          have hargs1 : ∀ p ∈ ps',
              (b1.tiles p.1 p.2).tile_type ≠ TileType.mine ∧ G p := by
            intro p hp
            obtain ⟨h1, h2⟩ := hargs p (List.mem_cons_of_mem q hp)
            exact ⟨fun hmine => h1 ((hiff1 p.1 p.2).mp hmine), h2⟩
          rcases ihl b1 (b2, tr2) heq2 G κ N hinv1 (hsz.trans hN) hκ1 hargs1 hcl i j
              hrev with hl | hr
          · exact hfun _ _ _ (b1, tr1) heq1 G κ N hinv hnmq hN hκ hGq hcl i j hl
          · exact Or.inr hr

/-! Trace facts: every call records its argument, and the sibling loop
records every listed position. -/

theorem eval_trace_head {fuel : Nat} {b : Board} {x y : Int}
    {r : Board × List (Int × Int)} (h : evalFuel fuel b x y = some r) :
    (x, y) ∈ r.2 := by
  cases fuel with
  | zero =>
    rw [evalFuel_zero] at h
    exact absurd h (by simp)
  | succ f =>
    rw [evalFuel_succ] at h
    split at h
    · injection h with h
      subst h
      exact List.mem_singleton.mpr rfl
    · split at h
      · exact absurd h (by simp)
      · next b2 tr heq =>
        injection h with h
        subst h
        exact List.mem_cons_self _ _

theorem evalList_trace_mem {fuel : Nat} :
    ∀ {b : Board} {ps : List (Int × Int)} {r : Board × List (Int × Int)},
      evalList fuel b ps = some r → ∀ p ∈ ps, p ∈ r.2 := by
  intro b ps
  induction ps generalizing b with
  | nil =>
    intro r _ p hp
    exact absurd hp (List.not_mem_nil p)
  | cons q ps' ihl =>
    intro r h p hp
    rw [evalList_cons] at h
    split at h
    · exact absurd h (by simp)
    · next b1 tr1 heq1 =>
      split at h
      · exact absurd h (by simp)
      · next b2 tr2 heq2 =>
        injection h with h
        subst h
        rcases List.mem_cons.mp hp with hpq | hp'
        · subst hpq
          exact List.mem_append_left _ (eval_trace_head heq1)
        · exact List.mem_append_right _ (ihl heq2 p hp')

/-! The zero-adjacency region and its boundary ring. -/

/-- An on-board position with no adjacent mines. -/
def zeroPos (b : Board) (p : Int × Int) : Prop :=
  onBoard b p.1 p.2 ∧ trueCount b p.1 p.2 = 0

/-- The connected zero-adjacency region of `t`: positions reachable from `t`
by 8-neighbour steps through zero-adjacency tiles. -/
inductive ZReach (b : Board) (t : Int × Int) : Int × Int → Prop where
  | refl : zeroPos b t → ZReach b t t
  | step {p q : Int × Int} : ZReach b t p → q ∈ neighborOffsets p.1 p.2 →
      zeroPos b q → ZReach b t q

/-- The boundary ring: on-board neighbours of the region carrying a
positive adjacency count. -/
def ringPos (b : Board) (t p : Int × Int) : Prop :=
  onBoard b p.1 p.2 ∧ 0 < trueCount b p.1 p.2 ∧
    ∃ q : Int × Int, ZReach b t q ∧ p ∈ neighborOffsets q.1 q.2

theorem ZReach_zeroPos {b : Board} {t p : Int × Int} (h : ZReach b t p) :
    zeroPos b p := by
  cases h with
  | refl hz => exact hz
  | step _ _ hz => exact hz

/-- C4 (amended): on a board with no tile yet revealed, evaluating a
non-mine tile with zero adjacent mines reveals exactly its connected
zero-adjacency region plus the surrounding ring of boundary tiles, and
every revealed tile's stored count is its true adjacency count (so ring
tiles are numbered positively).  The "each tile evaluated exactly once"
part of the original claim is dropped — see the counterexample. -/
theorem C4_flood_region (b : Board) (x y : Int)
    (hfresh : ∀ i j : Int, onBoard b i j → (b.tiles i j).revealed = false)
    (hob : onBoard b x y)
    (hnm : (b.tiles x y).tile_type ≠ TileType.mine)
    (h0 : trueCount b x y = 0) :
    (∀ i j : Int, onBoard b i j →
      (((evaluate_tile b x y).tiles i j).revealed = true ↔
        ZReach b (x, y) (i, j) ∨ ringPos b (x, y) (i, j))) ∧
    (∀ i j : Int, onBoard b i j → ((evaluate_tile b x y).tiles i j).revealed = true →
      ((evaluate_tile b x y).tiles i j).n_adjacent_mines = trueCount b i j) := by
  have hspec := evaluate_tile_spec b x y
  have hinv : InvB b := invB_of_fresh hfresh
  obtain ⟨hinvR, hiffR⟩ :=
    (evalInv (b.size * b.size + 1)).1 _ _ _ _ hspec hinv hnm
  have hsizeR : (evaluate_tile b x y).size = b.size :=
    ((evalMono (b.size * b.size + 1)).1 _ _ _ _ hspec).1
  have htcR : ∀ u v : Int, trueCount (evaluate_tile b x y) u v = trueCount b u v :=
    trueCount_congr hsizeR hiffR
  have hcount : ∀ i j : Int, onBoard b i j →
      ((evaluate_tile b x y).tiles i j).revealed = true →
      ((evaluate_tile b x y).tiles i j).n_adjacent_mines = trueCount b i j := by
    intro i j hobij hrev
    have hobR : onBoard (evaluate_tile b x y) i j := by
      unfold onBoard at hobij ⊢
      rw [hsizeR]
      exact hobij
    have := (hinvR i j hobR hrev).2
    rw [htcR i j] at this
    exact this
  have hcl : ∀ p q : Int × Int,
      (ZReach b (x, y) p ∨ ringPos b (x, y) p) →
      trueCount b p.1 p.2 = 0 → q ∈ neighborOffsets p.1 p.2 →
      0 ≤ q.1 ∧ q.1 < (b.size : Int) ∧ 0 ≤ q.2 ∧ q.2 < (b.size : Int) →
      ZReach b (x, y) q ∨ ringPos b (x, y) q := by
    intro p q hGp h0p hq hbnd
    have hobq : onBoard b q.1 q.2 := hbnd
    rcases hGp with hz | hring
    · by_cases hq0 : trueCount b q.1 q.2 = 0
      · exact Or.inl (ZReach.step hz hq ⟨hobq, hq0⟩)
      · exact Or.inr ⟨hobq, Nat.pos_of_ne_zero hq0, p, hz, hq⟩
    · have := hring.2.1
      omega
  have hforward : ∀ i j : Int, onBoard b i j →
      ((evaluate_tile b x y).tiles i j).revealed = true →
      ZReach b (x, y) (i, j) ∨ ringPos b (x, y) (i, j) := by
    intro i j hobij hrev
    rcases (evalSound (b.size * b.size + 1)).1 _ _ _ _ hspec
        (fun p => ZReach b (x, y) p ∨ ringPos b (x, y) p)
        (fun u v => trueCount b u v) b.size hinv hnm rfl (fun _ _ => rfl)
        (Or.inl (ZReach.refl ⟨hob, h0⟩)) hcl i j hrev with hl | hr
    · rw [hfresh i j hobij] at hl
      exact absurd hl (by simp)
    · exact hr
  have hkey : ∀ u v : Int, onBoard b u v →
      ((evaluate_tile b x y).tiles u v).revealed = true →
      trueCount b u v = 0 →
      ∀ p ∈ neighborOffsets u v, onBoard b p.1 p.2 →
        ((evaluate_tile b x y).tiles p.1 p.2).revealed = true := by
    intro u v hobuv hrev h0uv
    rcases (evalZeroNbrs (b.size * b.size + 1)).1 _ _ _ _ hspec hinv hnm u v hrev
        with hl | hr
    · rw [hfresh u v hobuv] at hl
      exact absurd hl (by simp)
    · exact hr h0uv
  have hzone : ∀ p : Int × Int, ZReach b (x, y) p →
      ((evaluate_tile b x y).tiles p.1 p.2).revealed = true := by
    intro p hp
    induction hp with
    | refl hz => exact eval_reveals_arg hspec
    | step hzp hq hzq ihp =>
      next p0 q0 =>
        have hz0 := ZReach_zeroPos hzp
        exact hkey p0.1 p0.2 hz0.1 ihp hz0.2 q0 hq hzq.1
  refine ⟨fun i j hobij => ⟨hforward i j hobij, ?_⟩, hcount⟩
  intro hG
  rcases hG with hz | hring
  · exact hzone (i, j) hz
  · obtain ⟨hobp, _, q, hzq, hnbr⟩ := hring
    have hq0 := ZReach_zeroPos hzq
    exact hkey q.1 q.2 hq0.1 (hzone q hzq) hq0.2 (i, j) hnbr hobp

/-! Characterization of mine placement. -/

theorem plantMine_size (c : Board) (p : Int × Int) : (plantMine c p).size = c.size := by
  unfold plantMine
  split <;> rfl

theorem plantMine_revealed (c : Board) (p : Int × Int) (i j : Int) :
    ((plantMine c p).tiles i j).revealed = (c.tiles i j).revealed := by
  unfold plantMine
  split
  · by_cases hij : i = p.1 ∧ j = p.2
    · unfold setTile
      simp only []
      rw [if_pos hij, hij.1, hij.2]
    · rw [setTile_ne _ _ _ _ _ _ hij]
  · rfl

theorem plantMine_count (c : Board) (p : Int × Int) (i j : Int) :
    ((plantMine c p).tiles i j).n_adjacent_mines = (c.tiles i j).n_adjacent_mines := by
  unfold plantMine
  split
  · by_cases hij : i = p.1 ∧ j = p.2
    · unfold setTile
      simp only []
      rw [if_pos hij, hij.1, hij.2]
    · rw [setTile_ne _ _ _ _ _ _ hij]
  · rfl

theorem plantMine_n_total (c : Board) (p : Int × Int) :
    (plantMine c p).n_total_mines = c.n_total_mines := by
  unfold plantMine
  split <;> rfl

theorem foldl_plantMine_size (l : List (Int × Int)) :
    ∀ c : Board, (l.foldl plantMine c).size = c.size := by
  induction l with
  | nil => intro c; rfl
  | cons p l' ihl =>
    intro c
    rw [List.foldl_cons, ihl (plantMine c p), plantMine_size]

theorem foldl_plantMine_n_total (l : List (Int × Int)) :
    ∀ c : Board, (l.foldl plantMine c).n_total_mines = c.n_total_mines := by
  induction l with
  | nil => intro c; rfl
  | cons p l' ihl =>
    intro c
    rw [List.foldl_cons, ihl (plantMine c p), plantMine_n_total]

theorem foldl_plantMine_revealed (l : List (Int × Int)) :
    ∀ (c : Board) (i j : Int),
      ((l.foldl plantMine c).tiles i j).revealed = (c.tiles i j).revealed := by
  induction l with
  | nil => intro c i j; rfl
  | cons p l' ihl =>
    intro c i j
    rw [List.foldl_cons, ihl (plantMine c p), plantMine_revealed]

theorem foldl_plantMine_count (l : List (Int × Int)) :
    ∀ (c : Board) (i j : Int),
      ((l.foldl plantMine c).tiles i j).n_adjacent_mines =
        (c.tiles i j).n_adjacent_mines := by
  induction l with
  | nil => intro c i j; rfl
  | cons p l' ihl =>
    intro c i j
    rw [List.foldl_cons, ihl (plantMine c p), plantMine_count]

theorem foldl_plantMine_mine (l : List (Int × Int)) :
    ∀ (c : Board), (∀ p ∈ l, onBoard c p.1 p.2) → ∀ i j : Int,
      (((l.foldl plantMine c).tiles i j).tile_type = TileType.mine ↔
        ((i, j) ∈ l ∨ (c.tiles i j).tile_type = TileType.mine)) := by
  induction l with
  | nil =>
    intro c _ i j
    rw [List.foldl_nil]
    simp
  | cons p l' ihl =>
    intro c hob i j
    rw [List.foldl_cons]
    have hobc : ∀ q ∈ l', onBoard (plantMine c p) q.1 q.2 := by
      intro q hq
      have := hob q (List.mem_cons_of_mem p hq)
      unfold onBoard at this ⊢
      rw [plantMine_size]
      exact this
    rw [ihl (plantMine c p) hobc i j]
    have hstep : ((plantMine c p).tiles i j).tile_type = TileType.mine ↔
        ((i, j) = p ∨ (c.tiles i j).tile_type = TileType.mine) := by
      unfold plantMine
      rw [if_pos (hob p (List.mem_cons_self p l'))]
      by_cases hij : i = p.1 ∧ j = p.2
      · have hpe : (i, j) = p := Prod.ext hij.1 hij.2
        unfold setTile
        simp only []
        rw [if_pos hij]
        simp [hpe]
      · have hpe : ¬(i, j) = p := by
          intro he
          exact hij ⟨by rw [← he], by rw [← he]⟩
        rw [setTile_ne _ _ _ _ _ _ hij]
        simp [hpe]
    rw [hstep, List.mem_cons]
    tauto

/-! Every position is either untouched by the flood fill or ends up
revealed (used for the unrevealed-count invariant, C10). -/

theorem evalTouch (fuel : Nat) :
    (∀ b x y r, evalFuel fuel b x y = some r →
      ∀ i j : Int, r.1.tiles i j = b.tiles i j ∨ (r.1.tiles i j).revealed = true) ∧
    (∀ b ps r, evalList fuel b ps = some r →
      ∀ i j : Int, r.1.tiles i j = b.tiles i j ∨ (r.1.tiles i j).revealed = true) := by
  induction fuel with
  | zero =>
    constructor
    · intro b x y r h
      rw [evalFuel_zero] at h
      exact absurd h (by simp)
    · intro b ps r h i j
      cases ps with
      | nil =>
        rw [evalList_nil] at h
        injection h with h
        subst h
        exact Or.inl rfl
      | cons p ps' =>
        rw [evalList_cons, evalFuel_zero] at h
        exact absurd h (by simp)
  | succ f ih =>
    have hupd : ∀ (b : Board) (x y : Int) (cnt : Nat) (i j : Int),
        (evalUpdate b x y cnt).tiles i j = b.tiles i j ∨
        ((evalUpdate b x y cnt).tiles i j).revealed = true := by
      intro b x y cnt i j
      by_cases hij : i = x ∧ j = y
      · refine Or.inr ?_
        unfold evalUpdate
        rw [setTile]
        simp only []
        rw [if_pos hij]
      · refine Or.inl ?_
        unfold evalUpdate
        rw [setTile_ne _ _ _ _ _ _ hij]
    have hfun : ∀ b x y r, evalFuel (f + 1) b x y = some r →
        ∀ i j : Int, r.1.tiles i j = b.tiles i j ∨ (r.1.tiles i j).revealed = true := by
      intro b x y r h i j
      rw [evalFuel_succ] at h
      split at h
      · injection h with h
        subst h
        exact hupd b x y _ i j
      · split at h
        · exact absurd h (by simp)
        · next b2 tr heq =>
          injection h with h
          subst h
          rcases ih.2 _ _ (b2, tr) heq i j with hl | hr
          · rcases hupd b x y (mine_counter b x y) i j with hl2 | hr2
            · refine Or.inl ?_
              show b2.tiles i j = b.tiles i j
              rw [hl, hl2]
            · refine Or.inr ?_
              show (b2.tiles i j).revealed = true
              rw [hl]
              exact hr2
          · exact Or.inr hr
    refine ⟨hfun, ?_⟩
    intro b ps
    induction ps generalizing b with
    | nil =>
      intro r h i j
      rw [evalList_nil] at h
      injection h with h
      subst h
      exact Or.inl rfl
    | cons p ps' ihl =>
      intro r h i j
      rw [evalList_cons] at h
      split at h
      · exact absurd h (by simp)
      · next b1 tr1 heq1 =>
        split at h
        · exact absurd h (by simp)
        · next b2 tr2 heq2 =>
          injection h with h
          subst h
          rcases ihl b1 (b2, tr2) heq2 i j with hl | hr
          · rcases hfun _ _ _ (b1, tr1) heq1 i j with hl2 | hr2
            · refine Or.inl ?_
              show b2.tiles i j = b.tiles i j
              rw [hl]
              exact hl2
            · refine Or.inr ?_
              show (b2.tiles i j).revealed = true
              rw [hl]
              exact hr2
          · exact Or.inr hr

/-! `check_if_mine` and `revealAll` field lemmas. -/

theorem revealAll_revealed {b : Board} {i j : Int} (h : onBoard b i j) :
    ((revealAll b).tiles i j).revealed = true := by
  unfold revealAll
  simp only []
  rw [if_pos h]

theorem revealAll_keeps {b : Board} {i j : Int} (h : ¬ onBoard b i j) :
    (revealAll b).tiles i j = b.tiles i j := by
  unfold revealAll
  simp only []
  rw [if_neg h]

theorem check_if_mine_false_iff (b : Board) (x y : Int) :
    (check_if_mine b x y).1 = false ↔ (b.tiles x y).tile_type = TileType.mine := by
  unfold check_if_mine
  split_ifs with h
  · simp [h]
  · simp [h]

/-- Numerators of the density table over a denominator of 10. -/
def densityNumerator : Difficulty → Nat
  | .easy => 1
  | .medium => 2
  | .hard => 3
  | .insane => 5

/-- The rational-floor mine target computes as plain natural division. -/
theorem set_number_of_mines_eq (s : Nat) (d : Difficulty) :
    set_number_of_mines s d = (s * s * densityNumerator d) / 10 := by
  unfold set_number_of_mines
  rw [Int.floor_toNat]
  have h : ((s * s : Nat) : ℚ) * DIFFICULTY_MAPPING d =
      ((s * s * densityNumerator d : Nat) : ℚ) / ((10 : Nat) : ℚ) := by
    cases d <;> (unfold DIFFICULTY_MAPPING densityNumerator; push_cast; ring)
  rw [h, Nat.floor_div_eq_div]

/-- C5: `get_tile` returns the stored tile exactly when both coordinates
lie in `[0, size-1]`, and an absent result (`none`, modelling the silent
`None` return, never an exception) for every other integer pair — negative,
equal to `size`, or greater. -/
theorem C5_get_tile (b : Board) (x y : Int) :
    ((0 ≤ x ∧ x < (b.size : Int) ∧ 0 ≤ y ∧ y < (b.size : Int)) →
      get_tile b x y = some (b.tiles x y)) ∧
    (¬(0 ≤ x ∧ x < (b.size : Int) ∧ 0 ≤ y ∧ y < (b.size : Int)) →
      get_tile b x y = none) :=
  ⟨fun h => get_tile_of_onBoard h, fun h => get_tile_of_not_onBoard h⟩

/-- Witness board: 3×3, one mine at (2, 2), nothing revealed. -/
def wB3 : Board :=
  { size := 3
    difficulty := Difficulty.easy
    tiles := fun i j =>
      if i = 2 ∧ j = 2 then
        { tile_type := TileType.mine, revealed := false, n_adjacent_mines := 0 }
      else
        { tile_type := TileType.empty, revealed := false, n_adjacent_mines := 0 }
    n_total_mines := 1 }

/-- C5 witness: a concrete in-range lookup, a lookup at `x = size`, and a
negative lookup. -/
theorem C5_get_tile_witness :
    get_tile wB3 1 2 = some (wB3.tiles 1 2) ∧
    get_tile wB3 3 0 = none ∧
    get_tile wB3 0 (-1) = none :=
  ⟨(C5_get_tile wB3 1 2).1 (by decide),
   ((C5_get_tile wB3 3 0).2 (by decide)),
   ((C5_get_tile wB3 0 (-1)).2 (by decide))⟩

theorem check_if_mine_reveals (b : Board) (x y : Int)
    (h : (check_if_mine b x y).1 = false) :
    ∀ i j : Int, onBoard b i j → (((check_if_mine b x y).2).tiles i j).revealed = true := by
  intro i j hob
  have hm := (check_if_mine_false_iff b x y).mp h
  unfold check_if_mine
  rw [if_pos hm]
  exact revealAll_revealed hob

/-- C6: `checkMine` reports `false` exactly on mine tiles; whenever it
reports `false`, every grid tile is revealed immediately afterwards; on a
non-mine tile it reports `true`. -/
theorem C6_check_mine (b : Board) (x y : Int) :
    ((check_if_mine b x y).1 = false ↔ (b.tiles x y).tile_type = TileType.mine) ∧
    ((check_if_mine b x y).1 = false →
      ∀ i j : Int, onBoard b i j →
        (((check_if_mine b x y).2).tiles i j).revealed = true) ∧
    ((b.tiles x y).tile_type ≠ TileType.mine → (check_if_mine b x y).1 = true) := by
  refine ⟨check_if_mine_false_iff b x y, check_if_mine_reveals b x y, ?_⟩
  intro hnm
  unfold check_if_mine
  rw [if_neg hnm]

/-- C6 witness: selecting the mine of `wB3` reports a loss and reveals the
whole grid (sampled at a far corner). -/
theorem C6_check_mine_witness :
    ((check_if_mine wB3 2 2).1 = false ↔ (wB3.tiles 2 2).tile_type = TileType.mine) ∧
    (((check_if_mine wB3 2 2).2).tiles 0 0).revealed = true ∧
    ((check_if_mine wB3 0 0).1 = true) := by
  have h := C6_check_mine wB3 2 2
  refine ⟨h.1, h.2.1 (by decide) 0 0 (by decide), ?_⟩
  exact (C6_check_mine wB3 0 0).2.2 (by decide)

/-- C7: after placement exactly the distinct sampled positions carry kind
mine, `n_total_mines` equals the number of distinct sampled positions, and
that number is at most the initial target `floor(size² × density)` drawn
from the difficulty table {easy: 0.1, medium: 0.2, hard: 0.3, insane: 0.5}. -/
theorem C7_mine_placement (size : Nat) (d : Difficulty) (xs ys : List Int)
    (hxs : ∀ v ∈ xs, 0 ≤ v ∧ v < (size : Int))
    (hys : ∀ v ∈ ys, 0 ≤ v ∧ v < (size : Int))
    (hlen : xs.length = set_number_of_mines size d) :
    (∀ i j : Int, onBoard (mkBoard size d) i j →
      (((populate_board_with_mines (mkBoard size d) xs ys).tiles i j).tile_type =
          TileType.mine ↔ (i, j) ∈ List.zip xs ys)) ∧
    (populate_board_with_mines (mkBoard size d) xs ys).n_total_mines =
      (List.zip xs ys).dedup.length ∧
    (populate_board_with_mines (mkBoard size d) xs ys).n_total_mines ≤
      set_number_of_mines size d ∧
    DIFFICULTY_MAPPING Difficulty.easy = 1 / 10 ∧
    DIFFICULTY_MAPPING Difficulty.medium = 2 / 10 ∧
    DIFFICULTY_MAPPING Difficulty.hard = 3 / 10 ∧
    DIFFICULTY_MAPPING Difficulty.insane = 5 / 10 := by
  have hoball : ∀ p ∈ (List.zip xs ys).dedup,
      onBoard { mkBoard size d with
        n_total_mines := ((List.zip xs ys).dedup).length } p.1 p.2 := by
    intro p hp
    obtain ⟨u, v⟩ := p
    have hz : (u, v) ∈ List.zip xs ys := List.mem_dedup.mp hp
    obtain ⟨hu, hv⟩ := List.of_mem_zip hz
    obtain ⟨h1, h2⟩ := hxs u hu
    obtain ⟨h3, h4⟩ := hys v hv
    exact ⟨h1, h2, h3, h4⟩
  have hntot : (populate_board_with_mines (mkBoard size d) xs ys).n_total_mines =
      (List.zip xs ys).dedup.length := by
    unfold populate_board_with_mines
    rw [foldl_plantMine_n_total]
  refine ⟨?_, hntot, ?_, rfl, rfl, rfl, rfl⟩
  · intro i j _
    unfold populate_board_with_mines
    rw [foldl_plantMine_mine _ _ hoball i j, List.mem_dedup]
    constructor
    · intro h
      rcases h with h | h
      · exact h
      · exact absurd h (by simp [mkBoard, board_init])
    · exact Or.inl
  · rw [hntot]
    have h1 : (List.zip xs ys).dedup.length ≤ (List.zip xs ys).length :=
      (List.dedup_sublist _).length_le
    have h2 : (List.zip xs ys).length = min xs.length ys.length := List.length_zip xs ys
    omega

/-- C7 witness: a 2×2 insane board with draws (0,0) and (0,1). -/
theorem C7_mine_placement_witness :
    ((populate_board_with_mines (mkBoard 2 Difficulty.insane)
        [0, 0] [0, 1]).tiles 0 1).tile_type = TileType.mine ∧
    (populate_board_with_mines (mkBoard 2 Difficulty.insane)
        [0, 0] [0, 1]).n_total_mines =
      (List.zip [(0 : Int), 0] [(0 : Int), 1]).dedup.length := by
  have h := C7_mine_placement 2 Difficulty.insane [0, 0] [0, 1] (by decide) (by decide)
      (by rw [set_number_of_mines_eq]; decide)
  exact ⟨(h.1 0 1 (by decide)).mpr (by decide), h.2.1⟩

/-! Monotonicity of `revealed` across all mutating operations (C9), and the
unrevealed-count invariant (C10). -/

theorem get_tile_some_elim {b : Board} {x y : Int} {t : Tile}
    (h : get_tile b x y = some t) : onBoard b x y ∧ t = b.tiles x y := by
  by_cases hob : onBoard b x y
  · rw [get_tile_of_onBoard hob] at h
    injection h with h
    exact ⟨hob, h.symm⟩
  · rw [get_tile_of_not_onBoard hob] at h
    exact absurd h (by simp)

theorem setTile_reveal_mono (b : Board) (x y i j : Int)
    (h : (b.tiles i j).revealed = true) :
    ((setTile b x y { b.tiles x y with revealed := true }).tiles i j).revealed = true := by
  by_cases hij : i = x ∧ j = y
  · rw [setTile]
    simp only []
    rw [if_pos hij]
  · rw [setTile_ne _ _ _ _ _ _ hij]
    exact h

theorem check_if_mine_mono (b : Board) (x y i j : Int)
    (h : (b.tiles i j).revealed = true) :
    (((check_if_mine b x y).2).tiles i j).revealed = true := by
  unfold check_if_mine
  split_ifs with hm
  · by_cases hob : onBoard b i j
    · exact revealAll_revealed hob
    · have hob' : ¬ onBoard (setTile b x y { b.tiles x y with revealed := true }) i j := hob
      rw [revealAll_keeps hob']
      exact setTile_reveal_mono b x y i j h
  · exact h

theorem loopStep_some {b : Board} {x y : Int} {b' : Board} {keep : Bool}
    {k : Option TileType} (h : loopStep b x y = some (b', keep, k)) :
    b' = b ∨
    b' = evaluate_tile
      (check_if_mine (setTile b x y { b.tiles x y with revealed := true }) x y).2 x y := by
  unfold loopStep at h
  split at h
  · exact absurd h (by simp)
  · next t heq =>
    obtain ⟨hob, rfl⟩ := get_tile_some_elim heq
    split at h
    · injection h with h1
      exact Or.inl (congrArg Prod.fst h1).symm
    · injection h with h1
      exact Or.inr (congrArg Prod.fst h1).symm

theorem evaluate_tile_mono (b : Board) (x y i j : Int)
    (h : (b.tiles i j).revealed = true) :
    ((evaluate_tile b x y).tiles i j).revealed = true :=
  ((evalMono _).1 _ _ _ _ (evaluate_tile_spec b x y)).2 i j h

/-- C9: no operation ever clears a `revealed` flag — mine placement,
`checkMine`, `evaluate`, and a whole game-loop iteration all preserve
`revealed = true` at every position. -/
theorem C9_revealed_monotone (b : Board) (x y i j : Int) (xs ys : List Int)
    (h : (b.tiles i j).revealed = true) :
    ((populate_board_with_mines b xs ys).tiles i j).revealed = true ∧
    (((check_if_mine b x y).2).tiles i j).revealed = true ∧
    ((evaluate_tile b x y).tiles i j).revealed = true ∧
    (∀ (b' : Board) (keep : Bool) (k : Option TileType),
      loopStep b x y = some (b', keep, k) → (b'.tiles i j).revealed = true) := by
  refine ⟨?_, check_if_mine_mono b x y i j h, evaluate_tile_mono b x y i j h, ?_⟩
  · unfold populate_board_with_mines
    rw [foldl_plantMine_revealed]
    exact h
  · intro b' keep k hstep
    rcases loopStep_some hstep with rfl | rfl
    · exact h
    · exact evaluate_tile_mono _ x y i j
        (check_if_mine_mono _ x y i j (setTile_reveal_mono b x y i j h))

/-- A revealed tile on a 3×3 board used to witness C9. -/
def wB3r : Board := setTile wB3 0 0 { wB3.tiles 0 0 with revealed := true }

/-- C9 witness: the revealed tile at (0, 0) stays revealed through
placement and through evaluating another tile. -/
theorem C9_revealed_monotone_witness :
    ((populate_board_with_mines wB3r [2] [2]).tiles 0 0).revealed = true ∧
    ((evaluate_tile wB3r 1 1).tiles 0 0).revealed = true := by
  have h := C9_revealed_monotone wB3r 1 1 0 0 [2] [2] (by decide)
  exact ⟨h.1, h.2.2.1⟩

/-- The invariant of C10: an unrevealed tile always stores count 0. -/
def UnrevZero (b : Board) : Prop :=
  ∀ i j : Int, (b.tiles i j).revealed = false → (b.tiles i j).n_adjacent_mines = 0

theorem unrevZero_mkBoard (s : Nat) (d : Difficulty) : UnrevZero (mkBoard s d) :=
  fun _ _ _ => rfl

theorem unrevZero_populate {b : Board} (h : UnrevZero b) (xs ys : List Int) :
    UnrevZero (populate_board_with_mines b xs ys) := by
  intro i j hrev
  unfold populate_board_with_mines at hrev ⊢
  rw [foldl_plantMine_count]
  rw [foldl_plantMine_revealed] at hrev
  exact h i j hrev

theorem unrevZero_setTile_reveal {b : Board} (h : UnrevZero b) (x y : Int) :
    UnrevZero (setTile b x y { b.tiles x y with revealed := true }) := by
  intro i j hrev
  by_cases hij : i = x ∧ j = y
  · rw [setTile] at hrev
    simp only [] at hrev
    rw [if_pos hij] at hrev
    exact absurd hrev (by simp)
  · rw [setTile_ne _ _ _ _ _ _ hij] at hrev ⊢
    exact h i j hrev

theorem unrevZero_check {b : Board} (h : UnrevZero b) (x y : Int) :
    UnrevZero ((check_if_mine b x y).2) := by
  intro i j hrev
  unfold check_if_mine at hrev ⊢
  split_ifs with hm
  · rw [if_pos hm] at hrev
    by_cases hob : onBoard (setTile b x y { b.tiles x y with revealed := true }) i j
    · rw [revealAll_revealed hob] at hrev
      exact absurd hrev (by simp)
    · rw [revealAll_keeps hob] at hrev ⊢
      exact unrevZero_setTile_reveal h x y i j hrev
  · rw [if_neg hm] at hrev
    exact h i j hrev

theorem unrevZero_eval {b : Board} (h : UnrevZero b) (x y : Int) :
    UnrevZero (evaluate_tile b x y) := by
  intro i j hrev
  rcases (evalTouch _).1 _ _ _ _ (evaluate_tile_spec b x y) i j with hl | hr
  · rw [hl] at hrev ⊢
    exact h i j hrev
  · rw [hr] at hrev
    exact absurd hrev (by simp)

/-- C10: every operation preserves "unrevealed tiles store count 0" (the
count is only ever assigned together with `revealed := true`), the initial
board satisfies it, and under it an unrevealed tile always renders as the
unknown placeholder glyph rather than a digit. -/
theorem C10_unrevealed_zero (s : Nat) (d : Difficulty) (b : Board) (x y : Int)
    (xs ys : List Int) (h : UnrevZero b) :
    UnrevZero (mkBoard s d) ∧
    UnrevZero (populate_board_with_mines b xs ys) ∧
    UnrevZero ((check_if_mine b x y).2) ∧
    UnrevZero (evaluate_tile b x y) ∧
    (∀ (b' : Board) (keep : Bool) (k : Option TileType),
      loopStep b x y = some (b', keep, k) → UnrevZero b') ∧
    (∀ t : Tile, t.revealed = false → t.n_adjacent_mines = 0 →
      tileRepr t = TILE_TYPES TileType.unknown) := by
  refine ⟨unrevZero_mkBoard s d, unrevZero_populate h xs ys, unrevZero_check h x y,
    unrevZero_eval h x y, ?_, ?_⟩
  · intro b' keep k hstep
    rcases loopStep_some hstep with rfl | rfl
    · exact h
    · exact unrevZero_eval (unrevZero_check (unrevZero_setTile_reveal h x y) x y) x y
  · intro t hrev hcnt
    unfold tileRepr
    rw [hcnt, hrev]
    simp

/-- C10 witness: after flooding from (0, 0) on `wB3`, the still-unrevealed
mine tile (2, 2) stores count 0 and renders as the placeholder. -/
theorem C10_unrevealed_zero_witness :
    ((evaluate_tile wB3 0 0).tiles 2 2).n_adjacent_mines = 0 ∧
    tileRepr ((evaluate_tile wB3 0 0).tiles 2 2) = TILE_TYPES TileType.unknown := by
  have hz : UnrevZero wB3 := by
    intro i j _
    show (wB3.tiles i j).n_adjacent_mines = 0
    unfold wB3
    dsimp only
    split <;> rfl
  have h := C10_unrevealed_zero 3 Difficulty.easy wB3 0 0 [] [] hz
  have h1 : ((evaluate_tile wB3 0 0).tiles 2 2).revealed = false := by decide
  have h2 := h.2.2.2.1 2 2 h1
  exact ⟨h2, h.2.2.2.2.2 _ h1 h2⟩

/-- C8: the flood fill terminates — fuel equal to the number of tiles
(`size²`) never runs out for an on-board tile (call depth is bounded by the
board area), the fixed fuel `size² + 1` used by `evaluate_tile` always
completes, and the result is independent of any further fuel. -/
theorem C8_termination (b : Board) (x y : Int) :
    (onBoard b x y → (evalFuel (b.size * b.size) b x y).isSome = true) ∧
    (evalFuel (b.size * b.size + 1) b x y).isSome = true ∧
    (∀ g : Nat, b.size * b.size + 1 ≤ g →
      evalFuel g b x y = evalFuel (b.size * b.size + 1) b x y) := by
  refine ⟨?_, evalFuel_total b x y, ?_⟩
  · intro hob
    apply (evalSufficient (b.size * b.size)).1
    have hle : ((unrevFinset b).erase (x, y)).card ≤ (unrevFinset b).card :=
      Finset.card_erase_le
    cases hrev : (b.tiles x y).revealed with
    | true =>
      have hlt := card_unrevFinset_lt hob hrev
      omega
    | false =>
      have hmem : (x, y) ∈ unrevFinset b := mem_unrevFinset.mpr ⟨hob, hrev⟩
      have hcar := Finset.card_erase_of_mem hmem
      have hub := card_unrevFinset_le b
      have hpos : 0 < (unrevFinset b).card := Finset.card_pos.mpr ⟨(x, y), hmem⟩
      omega
  · intro g hg
    apply (evalStable (b.size * b.size + 1)).1 g b x y hg
    have hle : ((unrevFinset b).erase (x, y)).card ≤ (unrevFinset b).card :=
      Finset.card_erase_le
    have hub := card_unrevFinset_le b
    omega

/-- C8 witness: on the 3×3 board, fuel 9 (= the number of tiles) suffices
and extra fuel does not change the result. -/
theorem C8_termination_witness :
    (evalFuel 9 wB3 0 0).isSome = true ∧
    evalFuel 12 wB3 0 0 = evalFuel 10 wB3 0 0 := by
  have h := C8_termination wB3 0 0
  exact ⟨h.1 (by decide), h.2.2 12 (by decide)⟩

/-- C3: `evaluate` collects the valid not-yet-revealed neighbours, counts
the mines among them, then unconditionally sets the tile revealed, kind
empty and its stored count to that number; it recurses (evaluating every
collected neighbour) exactly when the count is zero, and evaluates nothing
besides itself when the count is positive. -/
theorem C3_evaluate_fields (b : Board) (x y : Int) :
    ((evaluate_tile b x y).tiles x y).revealed = true ∧
    ((evaluate_tile b x y).tiles x y).tile_type = TileType.empty ∧
    ((evaluate_tile b x y).tiles x y).n_adjacent_mines = mine_counter b x y ∧
    (0 < mine_counter b x y →
      evaluate_tile b x y = evalUpdate b x y (mine_counter b x y) ∧
      evaluateTrace b x y = [(x, y)]) ∧
    (mine_counter b x y = 0 →
      ∀ p ∈ adjacent_tiles b x y,
        p ∈ evaluateTrace b x y ∧
        ((evaluate_tile b x y).tiles p.1 p.2).revealed = true) := by
  have hspec := evaluate_tile_spec b x y
  rw [evalFuel_succ] at hspec
  split at hspec
  · next hc =>
    injection hspec with hspec
    have h1 : evalUpdate b x y (mine_counter b x y) = evaluate_tile b x y :=
      congrArg Prod.fst hspec
    have h2 : [(x, y)] = evaluateTrace b x y := congrArg Prod.snd hspec
    have hfields : (evaluate_tile b x y).tiles x y =
        { tile_type := TileType.empty, revealed := true,
          n_adjacent_mines := mine_counter b x y } := by
      rw [← h1]
      unfold evalUpdate
      rw [setTile_self]
    rw [hfields]
    refine ⟨rfl, rfl, rfl, fun _ => ⟨h1.symm, h2.symm⟩, fun h0 => ?_⟩
    exact absurd h0 (by omega)
  · next hc =>
    split at hspec
    · exact absurd hspec (by simp)
    · next b2 tr heq =>
      injection hspec with hspec
      have h1 : b2 = evaluate_tile b x y := congrArg Prod.fst hspec
      have h2 : (x, y) :: tr = evaluateTrace b x y := congrArg Prod.snd hspec
      have hb1 : (evalUpdate b x y (mine_counter b x y)).tiles x y =
          { tile_type := TileType.empty, revealed := true,
            n_adjacent_mines := mine_counter b x y } := by
        unfold evalUpdate
        rw [setTile_self]
      have hnmem : (x, y) ∉ adjacent_tiles b x y := by
        intro hm
        exact mem_neighborOffsets_ne (mem_adjacent_tiles.mp hm).1 rfl
      have hfr := (evalFrame (b.size * b.size)).2 _ _ (b2, tr) heq x y
        (by rw [hb1]) hnmem
      have hfields : (evaluate_tile b x y).tiles x y =
          { tile_type := TileType.empty, revealed := true,
            n_adjacent_mines := mine_counter b x y } := by
        rw [← h1]
        have : b2.tiles x y = (evalUpdate b x y (mine_counter b x y)).tiles x y := hfr
        rw [this, hb1]
      rw [hfields]
      refine ⟨rfl, rfl, rfl, fun hpos => absurd hpos hc, fun _ p hp => ?_⟩
      constructor
      · rw [← h2]
        exact List.mem_cons_of_mem _ (evalList_trace_mem heq p hp)
      · rw [← h1]
        exact evalList_reveals_args heq p hp

/-- C3 witness: evaluating the centre of `wB3` (one adjacent mine) sets its
count, does not recurse, and leaves the trace at just the centre. -/
theorem C3_evaluate_fields_witness :
    0 < mine_counter wB3 1 1 ∧
    evaluateTrace wB3 1 1 = [(1, 1)] ∧
    ((evaluate_tile wB3 1 1).tiles 1 1).n_adjacent_mines = mine_counter wB3 1 1 := by
  have h := C3_evaluate_fields wB3 1 1
  exact ⟨by decide, (h.2.2.2.1 (by decide)).2, h.2.2.1⟩

instance (b : Board) (p : Int × Int) : Decidable (zeroPos b p) := by
  unfold zeroPos
  infer_instance

/-- 3×3 mine-free board whose middle row is already revealed: the flood
from (0, 0) is blocked and cannot reach the bottom row. -/
def cexB3 : Board :=
  { size := 3
    difficulty := Difficulty.easy
    tiles := fun i _ =>
      if i = 1 then
        { tile_type := TileType.empty, revealed := true, n_adjacent_mines := 0 }
      else
        { tile_type := TileType.empty, revealed := false, n_adjacent_mines := 0 }
    n_total_mines := 0 }

/-- C4 counterexample: the claim fails as stated.  First, on a fresh
mine-free 2×2 board the flood from (0, 0) — a zero-adjacency tile —
evaluates tile (1, 1) three times, refuting "each such tile is evaluated
exactly once".  Second, on `cexB3` (a board state whose middle row is
already revealed) the zero-adjacency tile (2, 0) lies in the connected
zero-adjacency region of (0, 0) yet stays unrevealed, refuting "reveals
its entire connected zero-adjacency region" for arbitrary board states. -/
theorem C4_flood_region_counterexample :
    ((evaluateTrace (mkBoard 2 Difficulty.easy) 0 0).count ((1 : Int), (1 : Int)) = 3) ∧
    trueCount (mkBoard 2 Difficulty.easy) 0 0 = 0 ∧
    trueCount cexB3 0 0 = 0 ∧
    ZReach cexB3 (0, 0) (2, 0) ∧
    ((evaluate_tile cexB3 0 0).tiles 2 0).revealed = false := by
  refine ⟨by decide, by decide, by decide, ?_, by decide⟩
  have h1 : ZReach cexB3 (0, 0) (1, 1) :=
    ZReach.step (ZReach.refl (by decide)) (by decide) (by decide)
  exact ZReach.step h1 (by decide) (by decide)

/-- C4 witness: on `wB3` (mine at (2, 2), nothing revealed), flooding from
(0, 0) reveals the boundary tile (1, 1) and stamps it with its true count. -/
theorem C4_flood_region_witness :
    ((evaluate_tile wB3 0 0).tiles 1 1).revealed = true ∧
    ((evaluate_tile wB3 0 0).tiles 1 1).n_adjacent_mines = trueCount wB3 1 1 := by
  have hfresh : ∀ i j : Int, onBoard wB3 i j → (wB3.tiles i j).revealed = false := by
    intro i j _
    show (wB3.tiles i j).revealed = false
    unfold wB3
    dsimp only
    split <;> rfl
  have h := C4_flood_region wB3 0 0 hfresh (by decide) (by decide) (by decide)
  have hring : ringPos wB3 (0, 0) (1, 1) := by
    refine ⟨by decide, by decide, (0, 0), ZReach.refl (by decide), by decide⟩
  have hrev : ((evaluate_tile wB3 0 0).tiles 1 1).revealed = true :=
    (h.1 1 1 (by decide)).mpr (Or.inr hring)
  exact ⟨hrev, h.2 1 1 (by decide) hrev⟩

/-- 2×2 insane board whose two draws both hit (0, 0): exactly one mine,
at (0, 0). -/
def placedBoard : Board :=
  populate_board_with_mines (mkBoard 2 Difficulty.insane) [0, 0] [0, 0]

/-- C1 (code defect): selecting the unrevealed mine at (0, 0) makes
`check_if_mine` report the loss (`keep_playing = false`), yet the loop body
still invokes `evaluate_tile` on that tile — the recorded kind at the
moment of invocation is mine — and the evaluation overwrites the tile's
kind to empty before the loop ends. -/
theorem C1_loop_evaluates_mine :
    (placedBoard.tiles 0 0).tile_type = TileType.mine ∧
    (placedBoard.tiles 0 0).revealed = false ∧
    (loopStep placedBoard 0 0).map
        (fun r => (r.2.1, r.2.2, (r.1.tiles 0 0).tile_type)) =
      some (false, some TileType.mine, TileType.empty) := by
  decide

/-- C2 (code defect): (0, 0) is among the sampled placement positions and
carries kind mine after placement, yet in the state reached by the losing
loop iteration its kind is empty — the post-loss state violates "kind is
mine iff selected during placement". -/
theorem C2_mine_invariant_broken :
    ((0 : Int), (0 : Int)) ∈ List.zip [(0 : Int), 0] [(0 : Int), 0] ∧
    (placedBoard.tiles 0 0).tile_type = TileType.mine ∧
    (loopStep placedBoard 0 0).map (fun r => (r.1.tiles 0 0).tile_type) =
      some TileType.empty := by
  decide
